import Mathlib

/- Shallow embedding of the MAI-INFORMATION-SEARCH inverted-index search
   engine: the suffix stemmer (stemmer.cpp and its copy in search_cli.cpp),
   the index builder's posting-list and lexicon construction
   (index_builder.cpp), and the query engine of search_cli.cpp (lexer,
   implicit-AND post-pass, Shunting-Yard parser, RPN evaluator over sorted
   posting lists, result printer).  Characters are Lean `Char`s with the
   ASCII behaviour of the C ctype functions in the C locale; doc ids are
   `Nat` (the C `uint32_t` values); 32-bit wraparound is modelled with
   `% 4294967296` at the one place the C code can overflow. -/

/-- C `isspace` in the C locale: space, \t, \n, \v, \f, \r. -/
def isSpaceC (c : Char) : Bool :=
  decide (c.toNat = 32 ∨ c.toNat = 9 ∨ c.toNat = 10 ∨ c.toNat = 11 ∨
    c.toNat = 12 ∨ c.toNat = 13)

/-- C `isalnum` in the C locale: ASCII digits and letters. -/
def isAlnumC (c : Char) : Bool :=
  decide ((48 ≤ c.toNat ∧ c.toNat ≤ 57) ∨ (65 ≤ c.toNat ∧ c.toNat ≤ 90) ∨
    (97 ≤ c.toNat ∧ c.toNat ≤ 122))

/-- C `tolower` in the C locale: map A-Z to a-z, leave the rest. -/
def toLowerC (c : Char) : Char :=
  if 65 ≤ c.toNat ∧ c.toNat ≤ 90 then Char.ofNat (c.toNat + 32) else c

/-- The `ends_with` helper shared by stemmer.cpp and search_cli.cpp:
    true iff `suffix` is a suffix of `s`. -/
def endsWithC (s suffix : List Char) : Bool :=
  List.isSuffixOf suffix s

/-- Embedding of `stem_token` from stemmer.cpp (lines 54-92): tokens of
    length at most 2 are untouched, otherwise the first matching rule of the
    ordered suffix table fires (writing a NUL at position n-k is modelled by
    `List.take`). -/
def stem_token (t : List Char) : List Char :=
  if t.length ≤ 2 then t
  else if 5 < t.length ∧ endsWithC t ['i', 'n', 'g', 'l', 'y'] then t.take (t.length - 5)
  else if 4 < t.length ∧ endsWithC t ['e', 'd', 'l', 'y'] then t.take (t.length - 4)
  else if 4 < t.length ∧ endsWithC t ['i', 'n', 'g'] then t.take (t.length - 3)
  else if 3 < t.length ∧ endsWithC t ['e', 'd'] then t.take (t.length - 2)
  else if 4 < t.length ∧ endsWithC t ['i', 'e', 's'] then t.take (t.length - 3) ++ ['y']
  else if 3 < t.length ∧ endsWithC t ['e', 's'] then t.take (t.length - 2)
  else if 3 < t.length ∧ endsWithC t ['l', 'y'] then t.take (t.length - 2)
  else if 3 < t.length ∧ t.getLast? = some 's' then t.take (t.length - 1)
  else t

/-- Embedding of `stem_term_inplace` from search_cli.cpp (lines 82-119),
    the query-time copy of the stemmer. -/
def stem_term_inplace (t : List Char) : List Char :=
  if t.length ≤ 2 then t
  else if 5 < t.length ∧ endsWithC t ['i', 'n', 'g', 'l', 'y'] then t.take (t.length - 5)
  else if 4 < t.length ∧ endsWithC t ['e', 'd', 'l', 'y'] then t.take (t.length - 4)
  else if 4 < t.length ∧ endsWithC t ['i', 'n', 'g'] then t.take (t.length - 3)
  else if 3 < t.length ∧ endsWithC t ['e', 'd'] then t.take (t.length - 2)
  else if 4 < t.length ∧ endsWithC t ['i', 'e', 's'] then t.take (t.length - 3) ++ ['y']
  else if 3 < t.length ∧ endsWithC t ['e', 's'] then t.take (t.length - 2)
  else if 3 < t.length ∧ endsWithC t ['l', 'y'] then t.take (t.length - 2)
  else if 3 < t.length ∧ t.getLast? = some 's' then t.take (t.length - 1)
  else t

/-- The ordered 8-rule table of spec section 4.2, written from the spec's
    words: check the rules strictly top to bottom and apply the first whose
    length precondition and suffix both match; a token matching no rule is
    unchanged.  Used to compare the code's stemmer against the spec table. -/
def stemSpec (t : List Char) : List Char :=
  if 5 < t.length ∧ endsWithC t ['i', 'n', 'g', 'l', 'y'] then t.take (t.length - 5)
  else if 4 < t.length ∧ endsWithC t ['e', 'd', 'l', 'y'] then t.take (t.length - 4)
  else if 4 < t.length ∧ endsWithC t ['i', 'n', 'g'] then t.take (t.length - 3)
  else if 3 < t.length ∧ endsWithC t ['e', 'd'] then t.take (t.length - 2)
  else if 4 < t.length ∧ endsWithC t ['i', 'e', 's'] then t.take (t.length - 3) ++ ['y']
  else if 3 < t.length ∧ endsWithC t ['e', 's'] then t.take (t.length - 2)
  else if 3 < t.length ∧ endsWithC t ['l', 'y'] then t.take (t.length - 2)
  else if 3 < t.length ∧ t.getLast? = some 's' then t.take (t.length - 1)
  else t

/- ===== index builder (index_builder.cpp) ===== -/

/-- One hash-table entry of the builder (`TermEntry`), restricted to the
    fields the posting-list claims are about. -/
structure BEntry where
  postings : List Nat
  lastDocId : Nat
deriving DecidableEq

/-- Embedding of `add_term_doc` (index_builder.cpp lines 105-140).  The
    open-addressed hash table is modelled as an association list keyed by the
    term (linear probing only decides the slot of each distinct term); a new
    entry starts empty and the shared append path adds `docId` when the list
    is empty or `last_doc_id` differs, so a fresh entry holds `[docId]`. -/
def addTermDoc : List (List Char × BEntry) → List Char → Nat → List (List Char × BEntry)
  | [], term, docId => [(term, ⟨[docId], docId⟩)]
  | (t, e) :: rest, term, docId =>
    if t = term then
      if e.postings.length = 0 ∨ e.lastDocId ≠ docId then
        (t, ⟨e.postings ++ [docId], docId⟩) :: rest
      else (t, e) :: rest
    else (t, e) :: addTermDoc rest term docId

/-- One document line of stemmed.txt in the builder's scan loop
    (index_builder.cpp lines 223-272): every token of the line is fed to
    `add_term_doc` with the line's doc id. -/
def addDocTokens (tbl : List (List Char × BEntry)) (docId : Nat)
    (toks : List (List Char)) : List (List Char × BEntry) :=
  toks.foldl (fun t tok => addTermDoc t tok docId) tbl

/-- The builder's whole scan of stemmed.txt: document lines in stream
    order, each a doc id with its token list. -/
def buildTable (lines : List (Nat × List (List Char))) : List (List Char × BEntry) :=
  lines.foldl (fun t l => addDocTokens t l.1 l.2) []

/-- C `strcmp` strict order on byte strings (terms contain no NUL): the
    first differing byte decides; a proper prefix is smaller. -/
def bytesLt : List Char → List Char → Bool
  | [], [] => false
  | [], _ :: _ => true
  | _ :: _, [] => false
  | a :: as', b :: bs' =>
    if a.toNat < b.toNat then true
    else if b.toNat < a.toNat then false
    else bytesLt as' bs'

/-- The term bytes actually written to lexicon.bin for a term: the builder
    caps the written `term_len` at 65535 (index_builder.cpp lines 360-365). -/
def writtenTerm (t : List Char) : List Char :=
  t.take 65535

/- ===== query lexer (search_cli.cpp) ===== -/

/-- Query token type of search_cli.cpp (`TokenType` plus the term text). -/
inductive Tok where
  | term : List Char → Tok
  | and : Tok
  | or : Tok
  | not : Tok
  | lparen : Tok
  | rparen : Tok
deriving DecidableEq

/-- Embedding of the scanner loop of `tokenize_query` (search_cli.cpp lines
    387-450): skip whitespace; `&&`, `||`, `!`, `(`, `)` become operator
    tokens (the `i + 1 < n` lookahead is the `head?` test; a lone `&` or `|`
    falls through every branch and is discarded); a maximal `isalnum` run is
    lowercased, stemmed and becomes a TERM; any other byte is discarded.  The
    loop advances at least one byte per iteration; the fuel argument makes
    that explicit and is instantiated with the input length. -/
def rawTokensF : Nat → List Char → List Tok
  | 0, _ => []
  | _ + 1, [] => []
  | fuel + 1, c :: rest =>
    if isSpaceC c then rawTokensF fuel rest
    else if c = '&' then
      if rest.head? = some '&' then Tok.and :: rawTokensF fuel rest.tail
      else rawTokensF fuel rest
    else if c = '|' then
      if rest.head? = some '|' then Tok.or :: rawTokensF fuel rest.tail
      else rawTokensF fuel rest
    else if c = '!' then Tok.not :: rawTokensF fuel rest
    else if c = '(' then Tok.lparen :: rawTokensF fuel rest
    else if c = ')' then Tok.rparen :: rawTokensF fuel rest
    else if isAlnumC c then
      Tok.term (stem_term_inplace ((c :: rest.takeWhile isAlnumC).map toLowerC)) ::
        rawTokensF fuel (rest.dropWhile isAlnumC)
    else rawTokensF fuel rest

/-- The scanner applied to a whole query: every loop iteration consumes at
    least one byte, so the input length is enough fuel. -/
def rawTokens (l : List Char) : List Tok :=
  rawTokensF l.length l

/-- The `is_operand_end` predicate of search_cli.cpp (lines 374-376). -/
def isOperandEnd : Tok → Bool
  | Tok.term _ => true
  | Tok.rparen => true
  | _ => false

/-- The `is_operand_start` predicate of search_cli.cpp (lines 378-380). -/
def isOperandStart : Tok → Bool
  | Tok.term _ => true
  | Tok.lparen => true
  | Tok.not => true
  | _ => false

/-- The body of the implicit-AND post-pass for the tokens after the first:
    `prev` is the previous RAW token; an AND is inserted before the current
    token when `prev` ends an operand and the current token starts one. -/
def insertAndAux (prev : Tok) : List Tok → List Tok
  | [] => []
  | t :: ts =>
    (if isOperandEnd prev && isOperandStart t then [Tok.and, t] else [t]) ++ insertAndAux t ts

/-- The implicit-AND post-pass of `tokenize_query` (search_cli.cpp lines
    452-464): the first token is copied unchanged (`t > 0` guard). -/
def insertAnd : List Tok → List Tok
  | [] => []
  | t :: ts => t :: insertAndAux t ts

/-- The implicit-AND insertion described by spec section 4.4, written from
    the spec's words: walking the raw stream, between position i-1 and i an
    AND token is inserted exactly when the token at i-1 has type TERM or
    RPAREN and the token at i has type TERM, LPAREN or NOT, and nothing else
    changes. -/
def specInsertAnd : List Tok → List Tok
  | [] => []
  | [t] => [t]
  | a :: b :: ts =>
    if isOperandEnd a && isOperandStart b then a :: Tok.and :: specInsertAnd (b :: ts)
    else a :: specInsertAnd (b :: ts)

/-- Whole lexer: scanner followed by the implicit-AND post-pass. -/
def tokenizeQuery (q : List Char) : List Tok :=
  insertAnd (rawTokens q)

/- ===== query parser (search_cli.cpp, Shunting-Yard) ===== -/

/-- Operator precedence (search_cli.cpp lines 472-483). -/
def prec : Tok → Nat
  | Tok.not => 3
  | Tok.and => 2
  | Tok.or => 1
  | _ => 0

/-- Right associativity (search_cli.cpp lines 485-487): only NOT. -/
def isRightAssoc : Tok → Bool
  | Tok.not => true
  | _ => false

/-- Whether a token is one of the three operators. -/
def isOpTok : Tok → Bool
  | Tok.and => true
  | Tok.or => true
  | Tok.not => true
  | _ => false

/-- The operator-popping loop run before pushing operator `t`
    (search_cli.cpp lines 506-521): returns the tokens moved to the output
    in pop order and the remaining operator stack (head = top). -/
def popHigher (t : Tok) : List Tok → List Tok × List Tok
  | [] => ([], [])
  | top :: rest =>
    if isOpTok top = true ∧ (prec t < prec top ∨ (prec top = prec t ∧ isRightAssoc t = false)) then
      ((popHigher t rest).1.cons top, (popHigher t rest).2)
    else ([], top :: rest)

/-- The RPAREN loop (search_cli.cpp lines 533-551): pop to the output until
    the matching LPAREN; `none` when no LPAREN is found (parse error). -/
def popToLParen : List Tok → Option (List Tok × List Tok)
  | [] => none
  | top :: rest =>
    if top = Tok.lparen then some ([], rest)
    else
      match popToLParen rest with
      | none => none
      | some p => some (top :: p.1, p.2)

/-- The main Shunting-Yard loop of `to_rpn` (search_cli.cpp lines 497-553),
    carried state: remaining input, output so far, operator stack. -/
def runSY : List Tok → List Tok → List Tok → Option (List Tok × List Tok)
  | [], out, ops => some (out, ops)
  | Tok.term s :: ts, out, ops => runSY ts (out ++ [Tok.term s]) ops
  | Tok.and :: ts, out, ops =>
    runSY ts (out ++ (popHigher Tok.and ops).1) (Tok.and :: (popHigher Tok.and ops).2)
  | Tok.or :: ts, out, ops =>
    runSY ts (out ++ (popHigher Tok.or ops).1) (Tok.or :: (popHigher Tok.or ops).2)
  | Tok.not :: ts, out, ops =>
    runSY ts (out ++ (popHigher Tok.not ops).1) (Tok.not :: (popHigher Tok.not ops).2)
  | Tok.lparen :: ts, out, ops => runSY ts out (Tok.lparen :: ops)
  | Tok.rparen :: ts, out, ops =>
    match popToLParen ops with
    | none => none
    | some p => runSY ts (out ++ p.1) p.2

/-- The final drain of `to_rpn` (search_cli.cpp lines 555-566): a leftover
    parenthesis is a parse error. -/
def drainOps : List Tok → Option (List Tok)
  | [] => some []
  | top :: rest =>
    if top = Tok.lparen ∨ top = Tok.rparen then none
    else
      match drainOps rest with
      | none => none
      | some r => some (top :: r)

/-- Embedding of `to_rpn` (search_cli.cpp lines 489-571). -/
def toRpn (ts : List Tok) : Option (List Tok) :=
  match runSY ts [] [] with
  | none => none
  | some p =>
    match drainOps p.2 with
    | none => none
    | some d => some (p.1 ++ d)

/- ===== query evaluator (search_cli.cpp) ===== -/

/-- Sorted intersection `op_and` (search_cli.cpp lines 599-620): dual index
    walk emitting the common ids. -/
def opAnd : List Nat → List Nat → List Nat
  | [], _ => []
  | _ :: _, [] => []
  | x :: xs, y :: ys =>
    if x = y then x :: opAnd xs ys
    else if x < y then opAnd xs (y :: ys)
    else opAnd (x :: xs) ys
termination_by a b => a.length + b.length

/-- Sorted union `op_or` (search_cli.cpp lines 622-649): dual index walk,
    duplicates collapse, tails appended. -/
def opOr : List Nat → List Nat → List Nat
  | [], b => b
  | a :: as', [] => a :: as'
  | x :: xs, y :: ys =>
    if x = y then x :: opOr xs ys
    else if x < y then x :: opOr xs (y :: ys)
    else y :: opOr (x :: xs) ys
termination_by a b => a.length + b.length

/-- Universe complement `op_not` (search_cli.cpp lines 651-674): linear
    merge emitting every universe id not present in the operand. -/
def opNot : List Nat → List Nat → List Nat
  | [], _ => []
  | u :: us, [] => u :: opNot us []
  | u :: us, b :: bs =>
    if u = b then opNot us bs
    else if u < b then u :: opNot us (b :: bs)
    else opNot (u :: us) bs
termination_by u a => u.length + a.length

/-- The loaded index of search_cli.cpp (`IndexData`), abstracted to what the
    query claims depend on: the lexicon as term-to-posting-list pairs (the
    byte offsets into postings.bin are resolved), the universe id sequence
    loaded from forward.bin, and the doc-metadata array (`metas_by_id`
    together with `max_doc_id`) as a partial map from doc id to title/url. -/
structure Index where
  lexicon : List (List Char × List Nat)
  univ : List Nat
  docMeta : Nat → Option (List Char × List Char)

/-- Lexicon lookup of `lexicon_find` (search_cli.cpp lines 339-357): the
    binary search over the sorted lexicon finds the entry whose term equals
    the query term, modelled as first-match lookup. -/
def lookupTerm (idx : Index) (t : List Char) : Option (List Nat) :=
  (idx.lexicon.find? (fun e => e.1 == t)).map (fun e => e.2)

/-- Embedding of `eval_rpn` (search_cli.cpp lines 700-778): an operand stack
    of posting lists (head = top).  A missing term pushes the empty list; an
    under-full stack at an operator is an evaluation error; AND/OR pop b then
    a and push op(a, b); parenthesis tokens are skipped by the loop. -/
def evalRpn (idx : Index) : List Tok → List (List Nat) → Option (List (List Nat))
  | [], stack => some stack
  | Tok.term s :: ts, stack => evalRpn idx ts (((lookupTerm idx s).getD []) :: stack)
  | Tok.not :: ts, stack =>
    match stack with
    | a :: rest => evalRpn idx ts (opNot idx.univ a :: rest)
    | [] => none
  | Tok.and :: ts, stack =>
    match stack with
    | b :: a :: rest => evalRpn idx ts (opAnd a b :: rest)
    | _ => none
  | Tok.or :: ts, stack =>
    match stack with
    | b :: a :: rest => evalRpn idx ts (opOr a b :: rest)
    | _ => none
  | Tok.lparen :: ts, stack => evalRpn idx ts stack
  | Tok.rparen :: ts, stack => evalRpn idx ts stack

/-- Whole query evaluation as in `run_single_query` (search_cli.cpp lines
    801-836): an empty token stream short-circuits to the empty result; a
    parse error, an evaluation error or a final stack size other than one is
    a failure; otherwise the single remaining stack element is the result. -/
def evalQuery (idx : Index) (q : List Char) : Option (List Nat) :=
  if (tokenizeQuery q).isEmpty then some []
  else
    match toRpn (tokenizeQuery q) with
    | none => none
    | some rpn =>
      match evalRpn idx rpn [] with
      | some [r] => some r
      | _ => none

/- ===== result presentation (search_cli.cpp) ===== -/

/-- One stdout line of a result block. -/
inductive OutLine where
  | total : Nat → OutLine
  | doc : Nat → List Char → List Char → OutLine
deriving DecidableEq

/-- The DOC line printed for result index `i` (search_cli.cpp lines
    789-797): metadata of the doc id when present, else empty strings. -/
def docLine (idx : Index) (res : List Nat) (i : Nat) : OutLine :=
  match idx.docMeta (res.getD i 0) with
  | some m => OutLine.doc (res.getD i 0) m.1 m.2
  | none => OutLine.doc (res.getD i 0) [] []

/-- Embedding of `print_results` (search_cli.cpp lines 780-799): the TOTAL
    header; early return when `offset >= count`; otherwise
    `end = offset + limit` in u32 arithmetic, clamped to `count`, and one DOC
    line per index in `[offset, end)`. -/
def printResults (idx : Index) (res : List Nat) (offset limit : Nat) : List OutLine :=
  OutLine.total res.length ::
    (if res.length ≤ offset then []
     else
       (List.range' offset
         ((if res.length < (offset + limit) % 4294967296 then res.length
           else (offset + limit) % 4294967296) - offset)).map (docLine idx res))

/-- Result presentation as described by claim C9 and spec section 4.7,
    written from the spec's words: the TOTAL header, then one DOC line for
    each result index in the window [offset, min(offset+limit, count)) with
    exact (non-wrapping) arithmetic. -/
def printResultsSpec (idx : Index) (res : List Nat) (offset limit : Nat) : List OutLine :=
  OutLine.total res.length ::
    (List.range' offset (min (offset + limit) res.length - offset)).map (docLine idx res)

/-- The stdout of `run_single_query` for one query (search_cli.cpp lines
    801-836): an empty token stream prints `TOTAL 0`; parse and evaluation
    errors print nothing on stdout (stderr only); otherwise the result block
    of `print_results`. -/
def queryOutput (idx : Index) (q : List Char) (offset limit : Nat) : Option (List OutLine) :=
  if (tokenizeQuery q).isEmpty then some [OutLine.total 0]
  else
    match toRpn (tokenizeQuery q) with
    | none => none
    | some rpn =>
      match evalRpn idx rpn [] with
      | some [r] => some (printResults idx r offset limit)
      | _ => none

/- ===== well-formedness of a loaded index, and concrete test indexes ===== -/

/-- Invariants of a loaded index, from the spec's data-model section: the
    universe is strictly ascending, and every posting list is strictly
    ascending with all doc ids drawn from the universe. -/
def WF (idx : Index) : Prop :=
  List.Sorted (· < ·) idx.univ ∧
    ∀ p ∈ idx.lexicon, List.Sorted (· < ·) p.2 ∧ ∀ x ∈ p.2, x ∈ idx.univ

/-- A tiny concrete loaded index used by the witnesses: one term `a` in
    docs {1}, universe {1, 2}, no metadata. -/
def wIdx : Index where
  lexicon := [(['a'], [1])]
  univ := [1, 2]
  docMeta := fun _ => none

/-- A concrete loaded index with an empty lexicon and universe {1}, used by
    the C8 counterexample. -/
def cIdx : Index where
  lexicon := []
  univ := [1]
  docMeta := fun _ => none

/-- Invariant of the builder's term table while scanning: every entry's
    posting list is non-empty, strictly ascending, ends in `last_doc_id`, and
    contains only doc ids at most `bound` (the largest doc id seen so far). -/
def BInv (tbl : List (List Char × BEntry)) (bound : Nat) : Prop :=
  ∀ p ∈ tbl, p.2.postings ≠ [] ∧ List.Sorted (· < ·) p.2.postings ∧
    p.2.postings.getLast? = some p.2.lastDocId ∧ ∀ x ∈ p.2.postings, x ≤ bound

/-- A term of 65536 bytes, used by the C5 counterexample. -/
def cTermA : List Char :=
  List.replicate 65536 'a'

/-- A term of 65537 bytes sharing its first 65536 bytes with `cTermA`. -/
def cTermB : List Char :=
  List.replicate 65536 'a' ++ ['b']

/- ===== theorems: stemmer ===== -/

theorem stemmersEq : ∀ t, stem_token t = stem_term_inplace t :=
  fun _ => rfl

theorem stem_token_ne_nil (t : List Char) (h : t ≠ []) : stem_token t ≠ [] := by
  have key : ∀ n : Nat, n < t.length → t.take (t.length - n) ≠ [] := by
    intro n hn hc
    have hl := congrArg List.length hc
    simp [List.length_take] at hl
    omega
  unfold stem_token
  split_ifs with h1 h2 h3 h4 h5 h6 h7 h8 h9
  · exact h
  · exact key 5 (by omega)
  · exact key 4 (by omega)
  · exact key 3 (by omega)
  · exact key 2 (by omega)
  · simp
  · exact key 2 (by omega)
  · exact key 2 (by omega)
  · exact key 1 (by omega)
  · exact h

/-- Claim C3: the offline stemmer `stem_token` (stemmer.cpp) and the
    query-time `stem_term_inplace` (search_cli.cpp) compute the identical
    function on every input token. -/
theorem C3_stemmers_identical : ∀ t : List Char, stem_token t = stem_term_inplace t :=
  fun _ => rfl

/-- Claim C7: the stemmer applies exactly the first matching rule of the
    ordered 8-rule table of spec section 4.2 (with its stated length
    preconditions), and leaves every token of length at most 2, and every
    token matching no rule, unchanged. -/
theorem C7_stem_rule_table :
    (∀ t : List Char, stem_token t = stemSpec t) ∧
      (∀ t : List Char, t.length ≤ 2 → stem_token t = t) := by
  constructor
  · intro t
    unfold stem_token stemSpec
    by_cases h : t.length ≤ 2
    · rw [if_pos h]
      split_ifs with h1 h2 h3 h4 h5 h6 h7 h8
      · exact absurd h1.1 (by omega)
      · exact absurd h2.1 (by omega)
      · exact absurd h3.1 (by omega)
      · exact absurd h4.1 (by omega)
      · exact absurd h5.1 (by omega)
      · exact absurd h6.1 (by omega)
      · exact absurd h7.1 (by omega)
      · exact absurd h8.1 (by omega)
      · rfl
    · rw [if_neg h]
  · intro t h
    unfold stem_token
    rw [if_pos h]

/-- Witness for C7 at a concrete short token. -/
theorem C7_witness : stem_token ['a', 'b'] = ['a', 'b'] :=
  C7_stem_rule_table.2 ['a', 'b'] (by decide)

/-- Claim C10: a non-empty token is never stemmed to the empty string, by
    either copy of the stemmer: each rule's length precondition guarantees
    at least one byte survives. -/
theorem C10_stem_nonempty :
    (∀ t : List Char, t ≠ [] → stem_token t ≠ []) ∧
      (∀ t : List Char, t ≠ [] → stem_term_inplace t ≠ []) := by
  refine ⟨stem_token_ne_nil, fun t h => ?_⟩
  rw [← stemmersEq]
  exact stem_token_ne_nil t h

/-- Witness for C10 at a concrete token. -/
theorem C10_witness :
    (['f', 'o', 'x', 'e', 's'] : List Char) ≠ [] ∧
      stem_token ['f', 'o', 'x', 'e', 's'] ≠ [] :=
  ⟨by decide, C10_stem_nonempty.1 ['f', 'o', 'x', 'e', 's'] (by decide)⟩

/- ===== theorems: implicit AND insertion ===== -/

theorem insertAndAux_eq_spec (ts : List Tok) :
    ∀ t, t :: insertAndAux t ts = specInsertAnd (t :: ts) := by
  induction ts with
  | nil => intro t; rfl
  | cons b ts ih =>
    intro t
    by_cases h : isOperandEnd t && isOperandStart b
    · simp [insertAndAux, specInsertAnd, h, ← ih b]
    · simp [insertAndAux, specInsertAnd, h, ← ih b]

/-- Claim C6: the lexer's post-pass inserts an AND token between positions
    i-1 and i exactly when the token at i-1 has type TERM or RPAREN and the
    token at i has type TERM, LPAREN or NOT, and makes no other change: the
    code's pass equals the spec's description. -/
theorem C6_implicit_and : ∀ ts, insertAnd ts = specInsertAnd ts := by
  intro ts
  cases ts with
  | nil => rfl
  | cons t ts => exact insertAndAux_eq_spec ts t

/- ===== theorems: builder posting lists (C4) ===== -/

theorem getLastMem {l : List Nat} {L : Nat} (h : l.getLast? = some L) : L ∈ l := by
  induction l with
  | nil => simp at h
  | cons a l ih =>
    cases l with
    | nil => simp at h; simp [h]
    | cons b l' =>
      rw [List.getLast?_cons_cons] at h
      exact List.mem_cons_of_mem a (ih h)

theorem sorted_le_getLast {l : List Nat} {L : Nat} (hs : List.Sorted (· < ·) l)
    (hL : l.getLast? = some L) : ∀ x ∈ l, x ≤ L := by
  induction l with
  | nil => simp
  | cons a l ih =>
    cases l with
    | nil =>
      simp at hL
      simp [hL]
    | cons b l' =>
      rw [List.getLast?_cons_cons] at hL
      rw [List.sorted_cons] at hs
      intro x hx
      rcases List.mem_cons.mp hx with rfl | hx'
      · exact le_of_lt (hs.1 L (getLastMem hL))
      · exact ih hs.2 hL x hx'

theorem BInv_mono {tbl : List (List Char × BEntry)} {bound b2 : Nat}
    (h : BInv tbl bound) (hb : bound ≤ b2) : BInv tbl b2 := by
  intro p hp
  obtain ⟨h1, h2, h3, h4⟩ := h p hp
  exact ⟨h1, h2, h3, fun x hx => le_trans (h4 x hx) hb⟩

theorem addTermDoc_inv (term : List Char) (d bound : Nat) :
    ∀ tbl, BInv tbl bound → bound ≤ d → BInv (addTermDoc tbl term d) d := by
  intro tbl
  induction tbl with
  | nil =>
    intro _ _ p hp
    simp [addTermDoc] at hp
    rw [hp]
    exact ⟨by simp, by simp, by simp, by simp⟩
  | cons hd rest ih =>
    intro h hb
    obtain ⟨t, e⟩ := hd
    have hhead := h (t, e) (by simp)
    obtain ⟨hne, hsort, hlast, hbound⟩ := hhead
    have hrest : BInv rest bound := fun p hp => h p (List.mem_cons_of_mem _ hp)
    simp only [addTermDoc]
    by_cases ht : t = term
    · rw [if_pos ht]
      by_cases hcond : e.postings.length = 0 ∨ e.lastDocId ≠ d
      · rw [if_pos hcond]
        have hne2 : e.lastDocId ≠ d := by
          rcases hcond with hc | hc
          · exact absurd (List.length_eq_zero.mp hc) hne
          · exact hc
        have hLd : e.lastDocId < d :=
          lt_of_le_of_ne (le_trans (hbound _ (getLastMem hlast)) hb) hne2
        have hall : ∀ x ∈ e.postings, x < d :=
          fun x hx => lt_of_le_of_lt (sorted_le_getLast hsort hlast x hx) hLd
        intro p hp
        rcases List.mem_cons.mp hp with rfl | hp'
        · refine ⟨by simp, ?_, by simp, ?_⟩
          · refine List.pairwise_append.mpr ⟨hsort, List.sorted_singleton d, ?_⟩
            intro x hx y hy
            rw [List.mem_singleton.mp hy]
            exact hall x hx
          · intro x hx
            rcases List.mem_append.mp hx with hx' | hx'
            · exact le_trans (hbound x hx') hb
            · rw [List.mem_singleton.mp hx']
        · exact BInv_mono hrest hb p hp'
      · rw [if_neg hcond]
        exact BInv_mono h hb
    · rw [if_neg ht]
      intro p hp
      rcases List.mem_cons.mp hp with rfl | hp'
      · exact BInv_mono h hb (t, e) (by simp)
      · exact ih hrest hb p hp'

theorem addDocTokens_inv (d : Nat) :
    ∀ (toks : List (List Char)) (tbl : List (List Char × BEntry)) (bound : Nat),
      BInv tbl bound → bound ≤ d → BInv (addDocTokens tbl d toks) d := by
  intro toks
  induction toks with
  | nil =>
    intro tbl bound h hb
    simpa [addDocTokens] using BInv_mono h hb
  | cons tok toks ih =>
    intro tbl bound h hb
    simp only [addDocTokens, List.foldl_cons]
    exact ih (addTermDoc tbl tok d) d (addTermDoc_inv tok d bound tbl h hb) (le_refl d)

theorem buildFold_inv :
    ∀ (lines : List (Nat × List (List Char))) (tbl : List (List Char × BEntry)) (bound : Nat),
      BInv tbl bound → List.Chain (· ≤ ·) bound (lines.map Prod.fst) →
      ∃ b, BInv (lines.foldl (fun t l => addDocTokens t l.1 l.2) tbl) b := by
  intro lines
  induction lines with
  | nil =>
    intro tbl bound h _
    exact ⟨bound, h⟩
  | cons l lines ih =>
    intro tbl bound h hc
    rw [List.map_cons, List.chain_cons] at hc
    rw [List.foldl_cons]
    exact ih (addDocTokens tbl l.1 l.2) l.1 (addDocTokens_inv l.1 l.2 tbl bound h hc.1) hc.2

/-- Claim C4: when the document lines of stemmed.txt arrive in ascending
    doc_id order, every posting list the builder constructs is a strictly
    ascending (hence duplicate-free) sequence of doc ids. -/
theorem C4_postings_sorted (lines : List (Nat × List (List Char)))
    (h : List.Sorted (· ≤ ·) (lines.map Prod.fst)) :
    ∀ p ∈ buildTable lines, List.Sorted (· < ·) p.2.postings := by
  have hchain : List.Chain (· ≤ ·) 0 (lines.map Prod.fst) :=
    List.chain_iff_pairwise.mpr (List.pairwise_cons.mpr ⟨fun x _ => Nat.zero_le x, h⟩)
  obtain ⟨b, hb⟩ := buildFold_inv lines [] 0 (by intro p hp; simp at hp) hchain
  exact fun p hp => (hb p hp).2.1

/-- Witness for C4: two documents 1 and 2 both holding term `a` produce the
    posting list [1, 2]. -/
theorem C4_witness :
    List.Sorted (· < ·) ((['a'], BEntry.mk [1, 2] 2) : List Char × BEntry).2.postings :=
  C4_postings_sorted [(1, [['a']]), (2, [['a']])] (by decide)
    (['a'], BEntry.mk [1, 2] 2) (by decide)

/- ===== theorems: lexicon order (C5) ===== -/

theorem bytesLt_append_self : ∀ (l extra : List Char), bytesLt (l ++ extra) l = false := by
  intro l
  induction l with
  | nil =>
    intro extra
    cases extra with
    | nil => rfl
    | cons e es => rfl
  | cons c l ih =>
    intro extra
    simp [bytesLt, ih]

theorem bytesLt_self (l : List Char) : bytesLt l l = false := by
  simpa using bytesLt_append_self l []

theorem bytesLt_append_cons :
    ∀ (l : List Char) (e : Char) (es : List Char), bytesLt l (l ++ e :: es) = true := by
  intro l
  induction l with
  | nil => intro e es; rfl
  | cons c l ih => intro e es; simp [bytesLt, ih]

theorem bytesLt_total : ∀ a b : List Char, bytesLt a b = false → bytesLt b a = false → a = b := by
  intro a
  induction a with
  | nil =>
    intro b h1 _
    cases b with
    | nil => rfl
    | cons x xs => simp [bytesLt] at h1
  | cons c as ih =>
    intro b h1 h2
    cases b with
    | nil => simp [bytesLt] at h2
    | cons d bs =>
      by_cases hcd : c.toNat < d.toNat
      · simp [bytesLt, hcd] at h1
      · by_cases hdc : d.toNat < c.toNat
        · simp [bytesLt, hdc] at h2
        · have hc : c = d := Char.ofNat_toNat c ▸ Char.ofNat_toNat d ▸ by
            have : c.toNat = d.toNat := by omega
            rw [this]
          simp [bytesLt, hcd, hdc] at h1 h2
          rw [hc, ih bs h1 h2]

/-- Counterexample to claim C5 as stated: two distinct terms longer than
    65535 bytes sharing their first 65535 bytes are sorted by strcmp, yet the
    byte-strings written to lexicon.bin (truncated to 65535 bytes) are equal,
    so the written sequence is not strictly ascending. -/
theorem C5_counterexample :
    ([cTermA, cTermB].Nodup ∧
        List.Pairwise (fun a b => bytesLt b a = false) [cTermA, cTermB]) ∧
      ¬ List.Pairwise (fun a b => bytesLt a b = true) ([cTermA, cTermB].map writtenTerm) := by
  have hne : cTermA ≠ cTermB := by
    intro hc
    have h1 : bytesLt cTermA cTermB = true :=
      bytesLt_append_cons (List.replicate 65536 'a') 'b' []
    rw [hc, bytesLt_self] at h1
    exact Bool.false_ne_true h1
  have hAB : bytesLt cTermB cTermA = false :=
    bytesLt_append_self (List.replicate 65536 'a') ['b']
  have hmin : min 65535 65536 = 65535 := by omega
  have hwA : writtenTerm cTermA = List.replicate 65535 'a' := by
    have h1 : writtenTerm cTermA = List.replicate (min 65535 65536) 'a' :=
      List.take_replicate 'a' 65535 65536
    rw [h1, hmin]
  have hwB : writtenTerm cTermB = List.replicate 65535 'a' := by
    have h1 : writtenTerm cTermB = (List.replicate 65536 'a').take 65535 :=
      List.take_append_of_le_length (by rw [List.length_replicate]; omega)
    rw [h1, List.take_replicate, hmin]
  refine ⟨⟨by simp [hne], by simp [hAB]⟩, ?_⟩
  intro hp
  rw [List.map_cons, List.map_cons, List.map_nil, hwA, hwB] at hp
  have hlt := (List.pairwise_cons.mp hp).1 _ (List.mem_singleton.mpr rfl)
  rw [bytesLt_self] at hlt
  exact Bool.false_ne_true hlt

/-- Claim C5 amended: the sorted distinct term sequence is strictly
    ascending bytewise, and the written (truncated to 65535 bytes)
    byte-strings are strictly ascending provided every term is at most 65535
    bytes long (the data-model bound). -/
theorem C5_lexicon_ascending (ts ss : List (List Char)) (hn : ts.Nodup)
    (hp : ss.Perm ts) (hs : List.Pairwise (fun a b => bytesLt b a = false) ss) :
    List.Pairwise (fun a b => bytesLt a b = true) ss ∧
      ((∀ t ∈ ts, t.length ≤ 65535) →
        List.Pairwise (fun a b => bytesLt a b = true) (ss.map writtenTerm)) := by
  have hnss : ss.Nodup := hp.nodup_iff.mpr hn
  have hstrict : List.Pairwise (fun a b => bytesLt a b = true) ss := by
    have hand := List.Pairwise.and hs hnss
    refine hand.imp ?_
    intro a b hab
    by_cases h : bytesLt a b = true
    · exact h
    · have hf : bytesLt a b = false := by
        cases hv : bytesLt a b
        · rfl
        · exact absurd hv h
      exact absurd (bytesLt_total a b hf hab.1) hab.2
  refine ⟨hstrict, fun hlen => ?_⟩
  have hmap : ss.map writtenTerm = ss := by
    have h1 : ss.map writtenTerm = ss.map id := by
      refine List.map_eq_map_iff.mpr ?_
      intro t htm
      have := hlen t (hp.mem_iff.mp htm)
      simp [writtenTerm, List.take_of_length_le this]
    rw [h1, List.map_id]
  rw [hmap]
  exact hstrict

/-- Witness for C5 (amended) at two concrete short terms. -/
theorem C5_witness :
    List.Pairwise (fun a b => bytesLt a b = true) [['a'], ['b']] ∧
      List.Pairwise (fun a b => bytesLt a b = true) ([['a'], ['b']].map writtenTerm) :=
  ⟨(C5_lexicon_ascending [['a'], ['b']] [['a'], ['b']] (by decide) (List.Perm.refl _)
      (by decide)).1,
   (C5_lexicon_ascending [['a'], ['b']] [['a'], ['b']] (by decide) (List.Perm.refl _)
      (by decide)).2 (by decide)⟩

/- ===== theorems: result presentation (C9) ===== -/

/-- Counterexample to claim C9 as stated: with count = 2, offset = 1 and
    limit = 4294967295 the C computation offset + limit wraps to 0 in u32
    arithmetic, so no DOC line is printed, while the claimed window
    [offset, min(offset+limit, count)) holds index 1. -/
theorem C9_counterexample :
    printResults cIdx [1, 2] 1 4294967295 ≠ printResultsSpec cIdx [1, 2] 1 4294967295 := by
  decide

/-- Claim C9 amended: result presentation prints the TOTAL header with the
    count, then exactly one DOC line for each result index in the window
    [offset, min((offset+limit) mod 2^32, count)) -- the sum offset+limit is
    computed in 32-bit arithmetic -- and in particular when offset >= count
    (and whenever the window is empty) it prints only the TOTAL header. -/
theorem C9_print_window (idx : Index) (res : List Nat) (offset limit : Nat) :
    printResults idx res offset limit =
      OutLine.total res.length ::
        (List.range' offset (min ((offset + limit) % 4294967296) res.length - offset)).map
          (docLine idx res) := by
  unfold printResults
  by_cases h : res.length ≤ offset
  · rw [if_pos h]
    have hz : min ((offset + limit) % 4294967296) res.length - offset = 0 := by
      have := Nat.min_le_right ((offset + limit) % 4294967296) res.length
      omega
    rw [hz, List.range'_zero, List.map_nil]
  · rw [if_neg h]
    have he : (if res.length < (offset + limit) % 4294967296 then res.length
        else (offset + limit) % 4294967296) = min ((offset + limit) % 4294967296) res.length := by
      rw [Nat.min_def]
      split_ifs <;> omega
    rw [he]

/- ===== theorems: lexer steps ===== -/

theorem rawTokensF_nil : ∀ f, rawTokensF f [] = [] := by
  intro f
  cases f with
  | zero => rfl
  | succ f => rfl

theorem dropWhile_length_le (p : Char → Bool) :
    ∀ l : List Char, (l.dropWhile p).length ≤ l.length := by
  intro l
  induction l with
  | nil => simp
  | cons a l ih =>
    by_cases ha : p a
    · simp only [List.dropWhile, ha, List.length_cons]
      omega
    · simp only [List.dropWhile, ha]
      exact le_refl _

theorem rawTokensF_irrel :
    ∀ (n : Nat) (l : List Char), l.length ≤ n → ∀ f, l.length ≤ f →
      rawTokensF f l = rawTokensF l.length l := by
  intro n
  induction n with
  | zero =>
    intro l hl f hf
    cases l with
    | nil => rw [rawTokensF_nil, rawTokensF_nil]
    | cons c rest => simp at hl
  | succ n ih =>
    intro l hl f hf
    cases l with
    | nil => rw [rawTokensF_nil, rawTokensF_nil]
    | cons c rest =>
      cases f with
      | zero => simp at hf
      | succ f2 =>
        have hr : rest.length ≤ n := by simp at hl; omega
        have hrf : rest.length ≤ f2 := by simp at hf; omega
        have htail : rest.tail.length ≤ rest.length := by
          cases rest <;> simp
        have hdrop : (rest.dropWhile isAlnumC).length ≤ rest.length :=
          dropWhile_length_le isAlnumC rest
        have erest : rawTokensF f2 rest = rawTokensF rest.length rest :=
          ih rest hr f2 hrf
        have etail1 : rawTokensF f2 rest.tail = rawTokensF rest.tail.length rest.tail :=
          ih rest.tail (le_trans htail hr) f2 (le_trans htail hrf)
        have etail2 : rawTokensF rest.length rest.tail =
            rawTokensF rest.tail.length rest.tail :=
          ih rest.tail (le_trans htail hr) rest.length htail
        have edrop1 : rawTokensF f2 (rest.dropWhile isAlnumC) =
            rawTokensF (rest.dropWhile isAlnumC).length (rest.dropWhile isAlnumC) :=
          ih _ (le_trans hdrop hr) f2 (le_trans hdrop hrf)
        have edrop2 : rawTokensF rest.length (rest.dropWhile isAlnumC) =
            rawTokensF (rest.dropWhile isAlnumC).length (rest.dropWhile isAlnumC) :=
          ih _ (le_trans hdrop hr) rest.length hdrop
        simp only [List.length_cons, rawTokensF]
        simp only [erest, etail1, etail2, edrop1, edrop2]

/-- One unfolding step of the scanner on a nonempty input, with every
    recursive occurrence phrased via `rawTokens` again. -/
theorem rawTokens_cons (c : Char) (rest : List Char) :
    rawTokens (c :: rest) =
      (if isSpaceC c then rawTokens rest
       else if c = '&' then
         if rest.head? = some '&' then Tok.and :: rawTokens rest.tail
         else rawTokens rest
       else if c = '|' then
         if rest.head? = some '|' then Tok.or :: rawTokens rest.tail
         else rawTokens rest
       else if c = '!' then Tok.not :: rawTokens rest
       else if c = '(' then Tok.lparen :: rawTokens rest
       else if c = ')' then Tok.rparen :: rawTokens rest
       else if isAlnumC c then
         Tok.term (stem_term_inplace ((c :: rest.takeWhile isAlnumC).map toLowerC)) ::
           rawTokens (rest.dropWhile isAlnumC)
       else rawTokens rest) := by
  have htail : rest.tail.length ≤ rest.length := by
    cases rest <;> simp
  have e1 : rawTokensF rest.length rest = rawTokens rest := rfl
  have e2 : rawTokensF rest.length rest.tail = rawTokens rest.tail :=
    rawTokensF_irrel rest.tail.length rest.tail (le_refl _) rest.length htail
  have e3 : rawTokensF rest.length (rest.dropWhile isAlnumC) =
      rawTokens (rest.dropWhile isAlnumC) :=
    rawTokensF_irrel _ _ (le_refl _) _ (dropWhile_length_le isAlnumC rest)
  show rawTokensF (rest.length + 1) (c :: rest) = _
  rw [rawTokensF]
  simp only [e1, e2, e3]

/- ===== theorems: absent terms (C8) ===== -/

theorem popHigher_mem (t : Tok) :
    ∀ l : List Tok, (∀ x ∈ (popHigher t l).1, x ∈ l) ∧ (∀ x ∈ (popHigher t l).2, x ∈ l) := by
  intro l
  induction l with
  | nil => exact ⟨by simp [popHigher], by simp [popHigher]⟩
  | cons top rest ih =>
    by_cases h : isOpTok top = true ∧
        (prec t < prec top ∨ (prec top = prec t ∧ isRightAssoc t = false))
    · simp only [popHigher, if_pos h]
      refine ⟨?_, ?_⟩
      · intro x hx
        rcases List.mem_cons.mp hx with rfl | hx'
        · exact List.mem_cons_self _ _
        · exact List.mem_cons_of_mem _ (ih.1 x hx')
      · intro x hx
        exact List.mem_cons_of_mem _ (ih.2 x hx)
    · simp only [popHigher, if_neg h]
      exact ⟨by simp, fun x hx => hx⟩

theorem popToLParen_mem :
    ∀ (l : List Tok) (p : List Tok × List Tok), popToLParen l = some p →
      (∀ x ∈ p.1, x ∈ l) ∧ (∀ x ∈ p.2, x ∈ l) := by
  intro l
  induction l with
  | nil => intro p h; simp [popToLParen] at h
  | cons top rest ih =>
    intro p h
    by_cases htop : top = Tok.lparen
    · rw [popToLParen, if_pos htop] at h
      obtain rfl := Option.some.inj h
      exact ⟨by simp, fun x hx => List.mem_cons_of_mem _ hx⟩
    · rw [popToLParen, if_neg htop] at h
      cases hrec : popToLParen rest with
      | none => rw [hrec] at h; simp at h
      | some q =>
        rw [hrec] at h
        obtain rfl := Option.some.inj h
        refine ⟨?_, ?_⟩
        · intro x hx
          rcases List.mem_cons.mp hx with rfl | hx'
          · exact List.mem_cons_self _ _
          · exact List.mem_cons_of_mem _ ((ih q hrec).1 x hx')
        · intro x hx
          exact List.mem_cons_of_mem _ ((ih q hrec).2 x hx)

theorem drainOps_eq : ∀ (l r : List Tok), drainOps l = some r → r = l := by
  intro l
  induction l with
  | nil => intro r h; exact (Option.some.inj h).symm
  | cons top rest ih =>
    intro r h
    by_cases htop : top = Tok.lparen ∨ top = Tok.rparen
    · rw [drainOps, if_pos htop] at h
      simp at h
    · rw [drainOps, if_neg htop] at h
      cases hrec : drainOps rest with
      | none => rw [hrec] at h; simp at h
      | some r' =>
        rw [hrec] at h
        obtain rfl := Option.some.inj h
        rw [ih r' hrec]

theorem runSY_mem :
    ∀ (ts out ops out2 ops2 : List Tok), runSY ts out ops = some (out2, ops2) →
      (∀ x ∈ out2, x ∈ out ∨ x ∈ ts ∨ x ∈ ops) ∧ (∀ x ∈ ops2, x ∈ ts ∨ x ∈ ops) := by
  intro ts
  induction ts with
  | nil =>
    intro out ops out2 ops2 h
    obtain ⟨rfl, rfl⟩ := Prod.mk.injEq .. ▸ Option.some.inj h
    exact ⟨fun x hx => Or.inl hx, fun x hx => Or.inr hx⟩
  | cons t ts ih =>
    intro out ops out2 ops2 h
    have opstep : ∀ op : Tok, t = op →
        runSY ts (out ++ (popHigher op ops).1) (op :: (popHigher op ops).2) = some (out2, ops2) →
        (∀ x ∈ out2, x ∈ out ∨ x ∈ t :: ts ∨ x ∈ ops) ∧
          (∀ x ∈ ops2, x ∈ t :: ts ∨ x ∈ ops) := by
      intro op hteq hrun
      subst hteq
      obtain ⟨h1, h2⟩ := ih _ _ _ _ hrun
      refine ⟨?_, ?_⟩
      · intro x hx
        rcases h1 x hx with hx' | hx' | hx'
        · rcases List.mem_append.mp hx' with hx'' | hx''
          · exact Or.inl hx''
          · exact Or.inr (Or.inr ((popHigher_mem t ops).1 x hx''))
        · exact Or.inr (Or.inl (List.mem_cons_of_mem _ hx'))
        · rcases List.mem_cons.mp hx' with rfl | hx''
          · exact Or.inr (Or.inl (List.mem_cons_self _ _))
          · exact Or.inr (Or.inr ((popHigher_mem t ops).2 x hx''))
      · intro x hx
        rcases h2 x hx with hx' | hx'
        · exact Or.inl (List.mem_cons_of_mem _ hx')
        · rcases List.mem_cons.mp hx' with rfl | hx''
          · exact Or.inl (List.mem_cons_self _ _)
          · exact Or.inr ((popHigher_mem t ops).2 x hx'')
    cases t with
    | term s =>
      rw [runSY] at h
      obtain ⟨h1, h2⟩ := ih _ _ _ _ h
      refine ⟨?_, ?_⟩
      · intro x hx
        rcases h1 x hx with hx' | hx' | hx'
        · rcases List.mem_append.mp hx' with hx'' | hx''
          · exact Or.inl hx''
          · rw [List.mem_singleton.mp hx'']
            exact Or.inr (Or.inl (List.mem_cons_self _ _))
        · exact Or.inr (Or.inl (List.mem_cons_of_mem _ hx'))
        · exact Or.inr (Or.inr hx')
      · intro x hx
        rcases h2 x hx with hx' | hx'
        · exact Or.inl (List.mem_cons_of_mem _ hx')
        · exact Or.inr hx'
    | and => rw [runSY] at h; exact opstep Tok.and rfl h
    | or => rw [runSY] at h; exact opstep Tok.or rfl h
    | not => rw [runSY] at h; exact opstep Tok.not rfl h
    | lparen =>
      rw [runSY] at h
      obtain ⟨h1, h2⟩ := ih _ _ _ _ h
      refine ⟨?_, ?_⟩
      · intro x hx
        rcases h1 x hx with hx' | hx' | hx'
        · exact Or.inl hx'
        · exact Or.inr (Or.inl (List.mem_cons_of_mem _ hx'))
        · rcases List.mem_cons.mp hx' with rfl | hx''
          · exact Or.inr (Or.inl (List.mem_cons_self _ _))
          · exact Or.inr (Or.inr hx'')
      · intro x hx
        rcases h2 x hx with hx' | hx'
        · exact Or.inl (List.mem_cons_of_mem _ hx')
        · rcases List.mem_cons.mp hx' with rfl | hx''
          · exact Or.inl (List.mem_cons_self _ _)
          · exact Or.inr hx''
    | rparen =>
      rw [runSY] at h
      cases hpop : popToLParen ops with
      | none => rw [hpop] at h; simp at h
      | some p =>
        rw [hpop] at h
        obtain ⟨h1, h2⟩ := ih _ _ _ _ h
        refine ⟨?_, ?_⟩
        · intro x hx
          rcases h1 x hx with hx' | hx' | hx'
          · rcases List.mem_append.mp hx' with hx'' | hx''
            · exact Or.inl hx''
            · exact Or.inr (Or.inr ((popToLParen_mem ops p hpop).1 x hx''))
          · exact Or.inr (Or.inl (List.mem_cons_of_mem _ hx'))
          · exact Or.inr (Or.inr ((popToLParen_mem ops p hpop).2 x hx'))
        · intro x hx
          rcases h2 x hx with hx' | hx'
          · exact Or.inl (List.mem_cons_of_mem _ hx')
          · exact Or.inr ((popToLParen_mem ops p hpop).2 x hx')

theorem toRpn_mem (ts rpn : List Tok) (h : toRpn ts = some rpn) : ∀ x ∈ rpn, x ∈ ts := by
  cases hrun : runSY ts [] [] with
  | none => rw [toRpn, hrun] at h; simp at h
  | some p =>
    rw [toRpn, hrun] at h
    simp only at h
    cases hdrain : drainOps p.2 with
    | none => rw [hdrain] at h; simp at h
    | some d =>
      rw [hdrain] at h
      simp only at h
      obtain rfl := Option.some.inj h
      intro x hx
      obtain ⟨h1, h2⟩ := runSY_mem ts [] [] p.1 p.2 (by rw [hrun])
      rcases List.mem_append.mp hx with hx' | hx'
      · rcases h1 x hx' with hc | hc | hc
        · simp at hc
        · exact hc
        · simp at hc
      · rw [drainOps_eq p.2 d hdrain] at hx'
        rcases h2 x hx' with hc | hc
        · exact hc
        · simp at hc

theorem evalRpn_nil_stack (idx : Index) :
    ∀ (rpn : List Tok) (st st2 : List (List Nat)),
      (∀ s, Tok.term s ∈ rpn → lookupTerm idx s = none) → Tok.not ∉ rpn →
      evalRpn idx rpn st = some st2 → (∀ l ∈ st, l = []) → ∀ l ∈ st2, l = [] := by
  intro rpn
  induction rpn with
  | nil =>
    intro st st2 _ _ h hst
    obtain rfl := Option.some.inj h
    exact hst
  | cons t ts ih =>
    intro st st2 hterm hnot h hst
    cases t with
    | term s =>
      rw [evalRpn] at h
      have hlook : lookupTerm idx s = none := hterm s (List.mem_cons_self _ _)
      refine ih _ _ (fun s' hs' => hterm s' (List.mem_cons_of_mem _ hs'))
        (fun hc => hnot (List.mem_cons_of_mem _ hc)) h ?_
      intro l hl
      rcases List.mem_cons.mp hl with rfl | hl'
      · simp [hlook]
      · exact hst l hl'
    | not => exact absurd (List.mem_cons_self _ _) hnot
    | and =>
      cases st with
      | nil => simp [evalRpn] at h
      | cons b st' =>
        cases st' with
        | nil => simp [evalRpn] at h
        | cons a rest =>
          simp only [evalRpn] at h
          have hb : b = [] := hst b (List.mem_cons_self _ _)
          have ha : a = [] := hst a (List.mem_cons_of_mem _ (List.mem_cons_self _ _))
          refine ih _ _ (fun s' hs' => hterm s' (List.mem_cons_of_mem _ hs'))
            (fun hc => hnot (List.mem_cons_of_mem _ hc)) h ?_
          intro l hl
          rcases List.mem_cons.mp hl with rfl | hl'
          · rw [ha, hb]
            simp [opAnd]
          · exact hst l (List.mem_cons_of_mem _ (List.mem_cons_of_mem _ hl'))
    | or =>
      cases st with
      | nil => simp [evalRpn] at h
      | cons b st' =>
        cases st' with
        | nil => simp [evalRpn] at h
        | cons a rest =>
          simp only [evalRpn] at h
          have hb : b = [] := hst b (List.mem_cons_self _ _)
          have ha : a = [] := hst a (List.mem_cons_of_mem _ (List.mem_cons_self _ _))
          refine ih _ _ (fun s' hs' => hterm s' (List.mem_cons_of_mem _ hs'))
            (fun hc => hnot (List.mem_cons_of_mem _ hc)) h ?_
          intro l hl
          rcases List.mem_cons.mp hl with rfl | hl'
          · rw [ha, hb]
            simp [opOr]
          · exact hst l (List.mem_cons_of_mem _ (List.mem_cons_of_mem _ hl'))
    | lparen =>
      rw [evalRpn] at h
      exact ih _ _ (fun s' hs' => hterm s' (List.mem_cons_of_mem _ hs'))
        (fun hc => hnot (List.mem_cons_of_mem _ hc)) h hst
    | rparen =>
      rw [evalRpn] at h
      exact ih _ _ (fun s' hs' => hterm s' (List.mem_cons_of_mem _ hs'))
        (fun hc => hnot (List.mem_cons_of_mem _ hc)) h hst

/-- Counterexample to claim C8 as stated: on the index with empty lexicon
    and universe {1}, the query `!a` has its only term absent from the
    lexicon, yet NOT of the empty posting list yields the whole universe, so
    the output is TOTAL 1 plus a DOC line, not TOTAL 0. -/
theorem C8_counterexample :
    (∀ s, Tok.term s ∈ tokenizeQuery ['!', 'a'] → lookupTerm cIdx s = none) ∧
      queryOutput cIdx ['!', 'a'] 0 50 ≠ some [OutLine.total 0] := by
  have htok : tokenizeQuery ['!', 'a'] = [Tok.not, Tok.term ['a']] := by
    decide
  constructor
  · intro s hs
    rw [htok] at hs
    simp at hs
    rw [hs]
    rfl
  · have hout : queryOutput cIdx ['!', 'a'] 0 50 =
        some [OutLine.total 1, OutLine.doc 1 [] []] := by
      rw [queryOutput, htok]
      simp [toRpn, runSY, popHigher, popToLParen, drainOps, evalRpn, lookupTerm, cIdx,
        opNot, printResults, docLine, isOpTok, prec, isRightAssoc]
    rw [hout]
    simp

/-- Claim C8 amended: for every query that contains no NOT operator, whose
    TERM tokens (after lowercasing and stemming) are all absent from the
    loaded lexicon, and whose evaluation succeeds, the output is exactly the
    TOTAL header with count 0 and no DOC lines.  (With NOT the claim fails:
    NOT of an absent term yields the whole universe.) -/
theorem C8_absent_terms (idx : Index) (q : List Char) (offset limit : Nat)
    (out : List OutLine)
    (hterm : ∀ s, Tok.term s ∈ tokenizeQuery q → lookupTerm idx s = none)
    (hnot : Tok.not ∉ tokenizeQuery q)
    (h : queryOutput idx q offset limit = some out) :
    out = [OutLine.total 0] := by
  rw [queryOutput] at h
  by_cases hemp : (tokenizeQuery q).isEmpty
  · rw [if_pos hemp] at h
    exact (Option.some.inj h).symm
  · rw [if_neg hemp] at h
    split at h
    · simp at h
    · rename_i rpn hrpn
      split at h
      · rename_i r heval
        have hr : ∀ l ∈ [r], l = [] :=
          evalRpn_nil_stack idx rpn [] [r]
            (fun s hs => hterm s (toRpn_mem _ _ hrpn _ hs))
            (fun hc => hnot (toRpn_mem _ _ hrpn _ hc)) heval (by simp)
        have hr0 : r = [] := hr r (List.mem_cons_self _ _)
        subst hr0
        have hp : printResults idx [] offset limit = [OutLine.total 0] := by
          rw [printResults]
          simp
        rw [hp] at h
        exact (Option.some.inj h).symm
      · simp at h

/-- Witness for C8 (amended): the query `b` on the index with empty lexicon
    prints TOTAL 0. -/
theorem C8_witness :
    (∀ s, Tok.term s ∈ tokenizeQuery ['b'] → lookupTerm cIdx s = none) ∧
      [OutLine.total 0] = [OutLine.total 0] :=
  ⟨by
    intro s hs
    have ht : tokenizeQuery ['b'] = [Tok.term ['b']] := by decide
    rw [ht] at hs
    simp at hs
    rw [hs]
    rfl,
   C8_absent_terms cIdx ['b'] 0 50 [OutLine.total 0]
    (by
      intro s hs
      have ht : tokenizeQuery ['b'] = [Tok.term ['b']] := by decide
      rw [ht] at hs
      simp at hs
      rw [hs]
      rfl)
    (by decide)
    (by simp [queryOutput, toRpn, runSY, drainOps, evalRpn, lookupTerm, cIdx,
      printResults])⟩

/- ===== theorems: sorted set algebra of the evaluator ===== -/

theorem opAnd_sublist : ∀ a b : List Nat, List.Sublist (opAnd a b) a := by
  intro a b
  induction a, b using opAnd.induct with
  | case1 b => simp [opAnd]
  | case2 x xs => simp [opAnd]
  | case3 xs y ys ih =>
    rw [show opAnd (y :: xs) (y :: ys) = y :: opAnd xs ys by simp [opAnd]]
    exact ih.cons₂ y
  | case4 x xs y ys h h2 ih =>
    rw [show opAnd (x :: xs) (y :: ys) = opAnd xs (y :: ys) by simp [opAnd, h, h2]]
    exact ih.cons x
  | case5 x xs y ys h h2 ih =>
    rw [show opAnd (x :: xs) (y :: ys) = opAnd (x :: xs) ys by simp [opAnd, h, h2]]
    exact ih

theorem opNot_sublist : ∀ u a : List Nat, List.Sublist (opNot u a) u := by
  intro u a
  induction u, a using opNot.induct with
  | case1 a => simp [opNot]
  | case2 u us ih =>
    rw [show opNot (u :: us) [] = u :: opNot us [] by simp [opNot]]
    exact ih.cons₂ u
  | case3 xs y ys ih =>
    rw [show opNot (y :: xs) (y :: ys) = opNot xs ys by simp [opNot]]
    exact ih.cons y
  | case4 x xs y ys h h2 ih =>
    rw [show opNot (x :: xs) (y :: ys) = x :: opNot xs (y :: ys) by simp [opNot, h, h2]]
    exact ih.cons₂ x
  | case5 x xs y ys h h2 ih =>
    rw [show opNot (x :: xs) (y :: ys) = opNot (x :: xs) ys by simp [opNot, h, h2]]
    exact ih

theorem mem_opOr : ∀ (a b : List Nat) (z : Nat), z ∈ opOr a b ↔ z ∈ a ∨ z ∈ b := by
  intro a b
  induction a, b using opOr.induct with
  | case1 b => intro z; simp [opOr]
  | case2 x xs => intro z; simp [opOr]
  | case3 xs y ys ih =>
    intro z
    rw [show opOr (y :: xs) (y :: ys) = y :: opOr xs ys by simp [opOr]]
    simp only [List.mem_cons, ih]
    tauto
  | case4 x xs y ys h h2 ih =>
    intro z
    rw [show opOr (x :: xs) (y :: ys) = x :: opOr xs (y :: ys) by simp [opOr, h, h2]]
    simp only [List.mem_cons, ih]
    tauto
  | case5 x xs y ys h h2 ih =>
    intro z
    rw [show opOr (x :: xs) (y :: ys) = y :: opOr (x :: xs) ys by simp [opOr, h, h2]]
    simp only [List.mem_cons, ih]
    tauto

theorem mem_opAnd : ∀ (a b : List Nat), List.Sorted (· < ·) a → List.Sorted (· < ·) b →
    ∀ z, z ∈ opAnd a b ↔ z ∈ a ∧ z ∈ b := by
  intro a b
  induction a, b using opAnd.induct with
  | case1 b => intro _ _ z; simp [opAnd]
  | case2 x xs => intro _ _ z; simp [opAnd]
  | case3 xs y ys ih =>
    intro ha hb z
    rw [List.sorted_cons] at ha hb
    rw [show opAnd (y :: xs) (y :: ys) = y :: opAnd xs ys by simp [opAnd]]
    simp only [List.mem_cons, ih ha.2 hb.2 z]
    constructor
    · rintro (rfl | ⟨h1, h2⟩)
      · exact ⟨Or.inl rfl, Or.inl rfl⟩
      · exact ⟨Or.inr h1, Or.inr h2⟩
    · rintro ⟨rfl | h1, h2⟩
      · exact Or.inl rfl
      · rcases h2 with rfl | h2
        · exact absurd (ha.1 z h1) (lt_irrefl z)
        · exact Or.inr ⟨h1, h2⟩
  | case4 x xs y ys h h2 ih =>
    intro ha hb z
    rw [List.sorted_cons] at ha
    rw [show opAnd (x :: xs) (y :: ys) = opAnd xs (y :: ys) by simp [opAnd, h, h2]]
    simp only [List.mem_cons, ih ha.2 hb z]
    constructor
    · rintro ⟨h1, h3⟩
      exact ⟨Or.inr h1, h3⟩
    · rintro ⟨rfl | h1, h3⟩
      · rcases h3 with rfl | h4
        · exact absurd h2 (lt_irrefl z)
        · rw [List.sorted_cons] at hb
          exact absurd (lt_trans h2 (hb.1 z h4)) (lt_irrefl z)
      · exact ⟨h1, h3⟩
  | case5 x xs y ys h h2 ih =>
    intro ha hb z
    have hyx : y < x := by
      rcases Nat.lt_trichotomy x y with hc | hc | hc
      · exact absurd hc h2
      · exact absurd hc h
      · exact hc
    rw [List.sorted_cons] at hb
    rw [show opAnd (x :: xs) (y :: ys) = opAnd (x :: xs) ys by simp [opAnd, h, h2]]
    simp only [List.mem_cons, ih ha hb.2 z]
    constructor
    · rintro ⟨h1, h3⟩
      exact ⟨h1, Or.inr h3⟩
    · rintro ⟨h1, rfl | h3⟩
      · rcases h1 with rfl | h4
        · exact absurd hyx (lt_irrefl z)
        · rw [List.sorted_cons] at ha
          exact absurd (lt_trans hyx (ha.1 z h4)) (lt_irrefl z)
      · exact ⟨h1, h3⟩

theorem mem_opNot : ∀ (u a : List Nat), List.Sorted (· < ·) u → List.Sorted (· < ·) a →
    ∀ z, z ∈ opNot u a ↔ z ∈ u ∧ z ∉ a := by
  intro u a
  induction u, a using opNot.induct with
  | case1 a => intro _ _ z; simp [opNot]
  | case2 u us ih =>
    intro hu _ z
    rw [List.sorted_cons] at hu
    rw [show opNot (u :: us) [] = u :: opNot us [] by simp [opNot]]
    simp only [List.mem_cons, ih hu.2 List.sorted_nil z]
    simp
  | case3 xs y ys ih =>
    intro hu ha z
    rw [List.sorted_cons] at hu ha
    rw [show opNot (y :: xs) (y :: ys) = opNot xs ys by simp [opNot]]
    simp only [List.mem_cons, ih hu.2 ha.2 z]
    constructor
    · rintro ⟨h1, h2⟩
      refine ⟨Or.inr h1, ?_⟩
      rintro (rfl | h3)
      · exact absurd (hu.1 z h1) (lt_irrefl z)
      · exact h2 h3
    · rintro ⟨rfl | h1, h2⟩
      · exact absurd (Or.inl rfl) h2
      · exact ⟨h1, fun h3 => h2 (Or.inr h3)⟩
  | case4 x xs y ys h h2 ih =>
    intro hu ha z
    rw [List.sorted_cons] at hu
    rw [show opNot (x :: xs) (y :: ys) = x :: opNot xs (y :: ys) by simp [opNot, h, h2]]
    simp only [List.mem_cons, ih hu.2 ha z]
    constructor
    · rintro (rfl | ⟨h1, h3⟩)
      · refine ⟨Or.inl rfl, ?_⟩
        rintro (rfl | h4)
        · exact absurd h2 (lt_irrefl z)
        · rw [List.sorted_cons] at ha
          exact absurd (lt_trans h2 (ha.1 z h4)) (lt_irrefl z)
      · exact ⟨Or.inr h1, h3⟩
    · rintro ⟨rfl | h1, h3⟩
      · exact Or.inl rfl
      · exact Or.inr ⟨h1, h3⟩
  | case5 x xs y ys h h2 ih =>
    intro hu ha z
    have hyx : y < x := by
      rcases Nat.lt_trichotomy x y with hc | hc | hc
      · exact absurd hc h2
      · exact absurd hc h
      · exact hc
    rw [List.sorted_cons] at ha
    rw [show opNot (x :: xs) (y :: ys) = opNot (x :: xs) ys by simp [opNot, h, h2]]
    simp only [List.mem_cons, ih hu ha.2 z]
    constructor
    · rintro ⟨h1, h3⟩
      refine ⟨h1, ?_⟩
      rintro (rfl | h4)
      · rcases h1 with rfl | h5
        · exact absurd hyx (lt_irrefl z)
        · rw [List.sorted_cons] at hu
          exact absurd (lt_trans hyx (hu.1 z h5)) (lt_irrefl z)
      · exact h3 h4
    · rintro ⟨h1, h3⟩
      exact ⟨h1, fun h4 => h3 (Or.inr h4)⟩

theorem opOr_sorted : ∀ (a b : List Nat), List.Sorted (· < ·) a → List.Sorted (· < ·) b →
    List.Sorted (· < ·) (opOr a b) := by
  intro a b
  induction a, b using opOr.induct with
  | case1 b => intro _ hb; simpa [opOr] using hb
  | case2 x xs => intro ha _; simpa [opOr] using ha
  | case3 xs y ys ih =>
    intro ha hb
    rw [List.sorted_cons] at ha hb
    rw [show opOr (y :: xs) (y :: ys) = y :: opOr xs ys by simp [opOr]]
    rw [List.sorted_cons]
    refine ⟨?_, ih ha.2 hb.2⟩
    intro z hz
    rcases (mem_opOr xs ys z).mp hz with h1 | h1
    · exact ha.1 z h1
    · exact hb.1 z h1
  | case4 x xs y ys h h2 ih =>
    intro ha hb
    rw [List.sorted_cons] at ha
    rw [show opOr (x :: xs) (y :: ys) = x :: opOr xs (y :: ys) by simp [opOr, h, h2]]
    rw [List.sorted_cons]
    refine ⟨?_, ih ha.2 hb⟩
    intro z hz
    rcases (mem_opOr xs (y :: ys) z).mp hz with h1 | h1
    · exact ha.1 z h1
    · rcases List.mem_cons.mp h1 with rfl | h3
      · exact h2
      · rw [List.sorted_cons] at hb
        exact lt_trans h2 (hb.1 z h3)
  | case5 x xs y ys h h2 ih =>
    intro ha hb
    have hyx : y < x := by
      rcases Nat.lt_trichotomy x y with hc | hc | hc
      · exact absurd hc h2
      · exact absurd hc h
      · exact hc
    rw [List.sorted_cons] at hb
    rw [show opOr (x :: xs) (y :: ys) = y :: opOr (x :: xs) ys by simp [opOr, h, h2]]
    rw [List.sorted_cons]
    refine ⟨?_, ih ha hb.2⟩
    intro z hz
    rcases (mem_opOr (x :: xs) ys z).mp hz with h1 | h1
    · rcases List.mem_cons.mp h1 with rfl | h3
      · exact hyx
      · rw [List.sorted_cons] at ha
        exact lt_trans hyx (ha.1 z h3)
    · exact hb.1 z h1

theorem sorted_mem_ext {l m : List Nat} (hl : List.Sorted (· < ·) l)
    (hm : List.Sorted (· < ·) m) (h : ∀ x, x ∈ l ↔ x ∈ m) : l = m := by
  haveI : IsAntisymm Nat (· < ·) := ⟨fun a b h1 h2 => absurd h2 (lt_asymm h1)⟩
  exact List.eq_of_perm_of_sorted ((List.perm_ext_iff_of_nodup hl.nodup hm.nodup).mpr h) hl hm

theorem lookup_good (idx : Index) (hwf : WF idx) (t : List Char) :
    List.Sorted (· < ·) ((lookupTerm idx t).getD []) ∧
      ∀ x ∈ (lookupTerm idx t).getD [], x ∈ idx.univ := by
  cases hfind : idx.lexicon.find? (fun e => e.1 == t) with
  | none =>
    rw [lookupTerm, hfind]
    exact ⟨List.sorted_nil, by simp⟩
  | some p =>
    have hmem : p ∈ idx.lexicon := List.mem_of_find?_eq_some hfind
    have hg := hwf.2 p hmem
    rw [lookupTerm, hfind]
    exact hg

theorem opNot_opAnd (u A B : List Nat) (hu : List.Sorted (· < ·) u)
    (hA : List.Sorted (· < ·) A) (hB : List.Sorted (· < ·) B) :
    opNot u (opAnd A B) = opOr (opNot u A) (opNot u B) := by
  have hAB : List.Sorted (· < ·) (opAnd A B) := List.Pairwise.sublist (opAnd_sublist A B) hA
  have hnA : List.Sorted (· < ·) (opNot u A) := List.Pairwise.sublist (opNot_sublist u A) hu
  have hnB : List.Sorted (· < ·) (opNot u B) := List.Pairwise.sublist (opNot_sublist u B) hu
  apply sorted_mem_ext (List.Pairwise.sublist (opNot_sublist u _) hu)
    (opOr_sorted _ _ hnA hnB)
  intro x
  rw [mem_opNot u _ hu hAB x, mem_opOr, mem_opNot u A hu hA x, mem_opNot u B hu hB x,
    mem_opAnd A B hA hB x]
  tauto

/- ===== theorems: scanner on whole tokens ===== -/

theorem alnum_facts (c : Char) (h : isAlnumC c = true) :
    isSpaceC c = false ∧ ¬(c = '&') ∧ ¬(c = '|') ∧ ¬(c = '!') ∧ ¬(c = '(') ∧ ¬(c = ')') := by
  rw [isAlnumC, decide_eq_true_iff] at h
  refine ⟨?_, ?_, ?_, ?_, ?_, ?_⟩
  · rw [isSpaceC]
    simp only [decide_eq_false_iff_not]
    intro hc
    omega
  · intro hc; rw [hc] at h; exact absurd h (by decide)
  · intro hc; rw [hc] at h; exact absurd h (by decide)
  · intro hc; rw [hc] at h; exact absurd h (by decide)
  · intro hc; rw [hc] at h; exact absurd h (by decide)
  · intro hc; rw [hc] at h; exact absurd h (by decide)

theorem scan_split (p : Char → Bool) :
    ∀ (as rest : List Char), (∀ c ∈ as, p c = true) →
      (rest = [] ∨ ∃ d r2, rest = d :: r2 ∧ p d = false) →
      (as ++ rest).takeWhile p = as ∧ (as ++ rest).dropWhile p = rest := by
  intro as
  induction as with
  | nil =>
    intro rest _ hrest
    rcases hrest with rfl | ⟨d, r2, rfl, hd⟩
    · exact ⟨rfl, rfl⟩
    · constructor
      · simp only [List.nil_append, List.takeWhile, hd]
      · simp only [List.nil_append, List.dropWhile, hd]
  | cons a as ih =>
    intro rest hall hrest
    have ha : p a = true := hall a (List.mem_cons_self _ _)
    have hih := ih rest (fun c hc => hall c (List.mem_cons_of_mem _ hc)) hrest
    constructor
    · simp only [List.cons_append, List.takeWhile, ha, List.append_eq, hih.1]
    · simp only [List.cons_append, List.dropWhile, ha, List.append_eq, hih.2]

theorem rawTokens_run :
    ∀ (a rest : List Char), a ≠ [] → (∀ c ∈ a, isAlnumC c = true) →
      (rest = [] ∨ ∃ d r2, rest = d :: r2 ∧ isAlnumC d = false) →
      rawTokens (a ++ rest) =
        Tok.term (stem_term_inplace (a.map toLowerC)) :: rawTokens rest := by
  intro a rest hne hall hrest
  cases a with
  | nil => exact absurd rfl hne
  | cons c as =>
    have hc : isAlnumC c = true := hall c (List.mem_cons_self _ _)
    obtain ⟨hsp, h1, h2, h3, h4, h5⟩ := alnum_facts c hc
    obtain ⟨ht, hd⟩ := scan_split isAlnumC as rest
      (fun x hx => hall x (List.mem_cons_of_mem _ hx)) hrest
    rw [List.cons_append, rawTokens_cons]
    simp [hsp, hc, h1, h2, h3, h4, h5, ht, hd]

theorem rawTokens_space_step (r : List Char) : rawTokens (' ' :: r) = rawTokens r := by
  rw [rawTokens_cons]
  simp [isSpaceC]

theorem rawTokens_bang_step (r : List Char) :
    rawTokens ('!' :: r) = Tok.not :: rawTokens r := by
  rw [rawTokens_cons]
  simp [isSpaceC]

theorem rawTokens_lparen_step (r : List Char) :
    rawTokens ('(' :: r) = Tok.lparen :: rawTokens r := by
  rw [rawTokens_cons]
  simp [isSpaceC]

theorem rawTokens_rparen_step (r : List Char) :
    rawTokens (')' :: r) = Tok.rparen :: rawTokens r := by
  rw [rawTokens_cons]
  simp [isSpaceC]

theorem rawTokens_ampamp_step (r : List Char) :
    rawTokens ('&' :: '&' :: r) = Tok.and :: rawTokens r := by
  rw [rawTokens_cons]
  simp [isSpaceC]

theorem rawTokens_pipepipe_step (r : List Char) :
    rawTokens ('|' :: '|' :: r) = Tok.or :: rawTokens r := by
  rw [rawTokens_cons]
  simp [isSpaceC]

theorem evalQuery_compute (idx : Index) (q : List Char) (t0 : Tok) (ts rpn : List Tok)
    (r : List Nat) (h1 : tokenizeQuery q = t0 :: ts) (h2 : toRpn (t0 :: ts) = some rpn)
    (h3 : evalRpn idx rpn [] = some [r]) : evalQuery idx q = some r := by
  rw [evalQuery, h1]
  simp [h2, h3]

/-- Claim C2: for any two terms a and b and any loaded well-formed index,
    evaluating the query NOT LPAREN a AND AND b RPAREN equals evaluating
    NOT a OR OR NOT b: De Morgan over the sorted-merge implementations of
    AND, OR and universe-complement NOT. -/
theorem C2_de_morgan (idx : Index) (a b : List Char) (hwf : WF idx) (hane : a ≠ [])
    (haall : ∀ c ∈ a, isAlnumC c = true) (hbne : b ≠ [])
    (hball : ∀ c ∈ b, isAlnumC c = true) :
    evalQuery idx ('!' :: '(' :: (a ++ (' ' :: '&' :: '&' :: ' ' :: (b ++ [')'])))) =
      evalQuery idx ('!' :: (a ++ (' ' :: '|' :: '|' :: ' ' :: '!' :: b))) := by
  set A := stem_term_inplace (a.map toLowerC) with hA
  set B := stem_term_inplace (b.map toLowerC) with hB
  set pA := (lookupTerm idx A).getD [] with hpA
  set pB := (lookupTerm idx B).getD [] with hpB
  have hb1 : rawTokens (b ++ [')']) = [Tok.term B, Tok.rparen] := by
    rw [rawTokens_run b [')'] hbne hball (Or.inr ⟨')', [], rfl, by decide⟩)]
    rw [show rawTokens [')'] = [Tok.rparen] from by decide]
  have hb2 : rawTokens b = [Tok.term B] := by
    have h := rawTokens_run b [] hbne hball (Or.inl rfl)
    simpa [rawTokens, rawTokensF] using h
  have hraw1 : rawTokens ('!' :: '(' :: (a ++ (' ' :: '&' :: '&' :: ' ' :: (b ++ [')'])))) =
      [Tok.not, Tok.lparen, Tok.term A, Tok.and, Tok.term B, Tok.rparen] := by
    rw [rawTokens_bang_step, rawTokens_lparen_step,
      rawTokens_run a _ hane haall (Or.inr ⟨' ', _, rfl, by decide⟩),
      rawTokens_space_step, rawTokens_ampamp_step, rawTokens_space_step, hb1]
  have hraw2 : rawTokens ('!' :: (a ++ (' ' :: '|' :: '|' :: ' ' :: '!' :: b))) =
      [Tok.not, Tok.term A, Tok.or, Tok.not, Tok.term B] := by
    rw [rawTokens_bang_step,
      rawTokens_run a _ hane haall (Or.inr ⟨' ', _, rfl, by decide⟩),
      rawTokens_space_step, rawTokens_pipepipe_step, rawTokens_space_step,
      rawTokens_bang_step, hb2]
  have htok1 : tokenizeQuery
      ('!' :: '(' :: (a ++ (' ' :: '&' :: '&' :: ' ' :: (b ++ [')'])))) =
      [Tok.not, Tok.lparen, Tok.term A, Tok.and, Tok.term B, Tok.rparen] := by
    rw [tokenizeQuery, hraw1]
    rfl
  have htok2 : tokenizeQuery ('!' :: (a ++ (' ' :: '|' :: '|' :: ' ' :: '!' :: b))) =
      [Tok.not, Tok.term A, Tok.or, Tok.not, Tok.term B] := by
    rw [tokenizeQuery, hraw2]
    rfl
  have hrpn1 : toRpn [Tok.not, Tok.lparen, Tok.term A, Tok.and, Tok.term B, Tok.rparen] =
      some [Tok.term A, Tok.term B, Tok.and, Tok.not] := rfl
  have hrpn2 : toRpn [Tok.not, Tok.term A, Tok.or, Tok.not, Tok.term B] =
      some [Tok.term A, Tok.not, Tok.term B, Tok.not, Tok.or] := rfl
  have heval1 : evalRpn idx [Tok.term A, Tok.term B, Tok.and, Tok.not] [] =
      some [opNot idx.univ (opAnd pA pB)] := rfl
  have heval2 : evalRpn idx [Tok.term A, Tok.not, Tok.term B, Tok.not, Tok.or] [] =
      some [opOr (opNot idx.univ pA) (opNot idx.univ pB)] := rfl
  rw [evalQuery_compute idx _ _ _ _ _ htok1 hrpn1 heval1,
    evalQuery_compute idx _ _ _ _ _ htok2 hrpn2 heval2]
  have hga := lookup_good idx hwf A
  have hgb := lookup_good idx hwf B
  rw [opNot_opAnd idx.univ pA pB hwf.1 hga.1 hgb.1]

theorem wIdx_wf : WF wIdx := by
  constructor
  · simp [wIdx, List.sorted_cons]
  · intro p hp
    simp only [wIdx, List.mem_singleton] at hp
    subst hp
    constructor
    · simp
    · intro x hx
      simp at hx
      simp [wIdx, hx]

/-- Witness for C2 with the terms a, b on the concrete index. -/
theorem C2_witness :
    evalQuery wIdx ('!' :: '(' :: (['a'] ++ (' ' :: '&' :: '&' :: ' ' :: (['b'] ++ [')'])))) =
      evalQuery wIdx ('!' :: (['a'] ++ (' ' :: '|' :: '|' :: ' ' :: '!' :: ['b']))) :=
  C2_de_morgan wIdx ['a'] ['b'] wIdx_wf (by decide) (by decide) (by decide) (by decide)

/- ===== theorems: NOT-wrapping a whole query (C1) ===== -/

theorem takeWhile_append_last (p : Char → Bool) (x : Char) (hx : p x = false) :
    ∀ l, (l ++ [x]).takeWhile p = l.takeWhile p ∧
      (l ++ [x]).dropWhile p = l.dropWhile p ++ [x] := by
  intro l
  induction l with
  | nil =>
    constructor
    · simp only [List.nil_append, List.takeWhile, hx]
    · simp only [List.nil_append, List.dropWhile, hx]
  | cons a l ih =>
    by_cases ha : p a
    · constructor
      · simp only [List.cons_append, List.takeWhile, ha, List.append_eq, ih.1]
      · simp only [List.cons_append, List.dropWhile, ha, List.append_eq, ih.2]
    · constructor
      · simp only [List.cons_append, List.takeWhile, ha, List.append_eq,
          Bool.false_eq_true, if_false]
      · simp only [List.cons_append, List.dropWhile, ha, List.append_eq,
          Bool.false_eq_true, if_false]

theorem rawTokens_append_rparen : ∀ q : List Char,
    rawTokens (q ++ [')']) = rawTokens q ++ [Tok.rparen] := by
  have H : ∀ (n : Nat) (q : List Char), q.length ≤ n →
      rawTokens (q ++ [')']) = rawTokens q ++ [Tok.rparen] := by
    intro n
    induction n with
    | zero =>
      intro q hq
      have hq0 : q = [] := by
        cases q with
        | nil => rfl
        | cons c r => simp at hq
      subst hq0
      decide
    | succ n ih =>
      intro q hq
      cases q with
      | nil => decide
      | cons c rest =>
        have hr : rest.length ≤ n := by simp at hq; omega
        rw [List.cons_append, rawTokens_cons, rawTokens_cons]
        by_cases h1 : isSpaceC c
        · simp only [if_pos h1]
          exact ih rest hr
        · simp only [if_neg h1]
          by_cases h2 : c = '&'
          · subst h2
            simp only [if_pos rfl]
            cases rest with
            | nil => decide
            | cons d r2 =>
              have hr2 : r2.length ≤ n := by simp at hq; omega
              by_cases hd : d = '&'
              · subst hd
                simp [List.cons_append, ih r2 hr2]
              · have ihd := ih (d :: r2) hr
                rw [List.cons_append] at ihd
                simp [List.cons_append, hd, ihd]
          · simp only [if_neg h2]
            by_cases h3 : c = '|'
            · subst h3
              simp only [if_pos rfl]
              cases rest with
              | nil => decide
              | cons d r2 =>
                have hr2 : r2.length ≤ n := by simp at hq; omega
                by_cases hd : d = '|'
                · subst hd
                  simp [List.cons_append, ih r2 hr2]
                · have ihd := ih (d :: r2) hr
                  rw [List.cons_append] at ihd
                  simp [List.cons_append, hd, ihd]
            · simp only [if_neg h3]
              by_cases h4 : c = '!'
              · simp only [if_pos h4, List.cons_append, ih rest hr]
              · simp only [if_neg h4]
                by_cases h5 : c = '('
                · simp only [if_pos h5, List.cons_append, ih rest hr]
                · simp only [if_neg h5]
                  by_cases h6 : c = ')'
                  · simp only [if_pos h6, List.cons_append, ih rest hr]
                  · simp only [if_neg h6]
                    by_cases h7 : isAlnumC c
                    · simp only [if_pos h7]
                      obtain ⟨ht, hd⟩ := takeWhile_append_last isAlnumC ')' (by decide) rest
                      rw [ht, hd, List.cons_append,
                        ih (rest.dropWhile isAlnumC) (le_trans (dropWhile_length_le _ _) hr)]
                    · simp only [if_neg h7]
                      exact ih rest hr
  intro q
  exact H q.length q (le_refl _)

theorem insertAndAux_append_rparen : ∀ (ts : List Tok) (p : Tok),
    insertAndAux p (ts ++ [Tok.rparen]) = insertAndAux p ts ++ [Tok.rparen] := by
  intro ts
  induction ts with
  | nil =>
    intro p
    simp [insertAndAux, isOperandStart]
  | cons t ts ih =>
    intro p
    simp only [List.cons_append, insertAndAux, List.append_eq, ih t, List.append_assoc]

theorem insertAndAux_lparen_eq : ∀ ts : List Tok,
    insertAndAux Tok.lparen ts = insertAnd ts := by
  intro ts
  cases ts with
  | nil => rfl
  | cons t ts =>
    simp [insertAnd, insertAndAux, isOperandEnd]

theorem tokenizeQuery_neg (q : List Char) :
    tokenizeQuery ('!' :: '(' :: (q ++ [')'])) =
      Tok.not :: Tok.lparen :: (tokenizeQuery q ++ [Tok.rparen]) := by
  rw [tokenizeQuery, rawTokens_bang_step, rawTokens_lparen_step, rawTokens_append_rparen]
  rw [show insertAnd (Tok.not :: Tok.lparen :: (rawTokens q ++ [Tok.rparen])) =
      Tok.not :: insertAndAux Tok.not (Tok.lparen :: (rawTokens q ++ [Tok.rparen])) from rfl]
  rw [show insertAndAux Tok.not (Tok.lparen :: (rawTokens q ++ [Tok.rparen])) =
      Tok.lparen :: insertAndAux Tok.lparen (rawTokens q ++ [Tok.rparen]) from by
    simp [insertAndAux, isOperandEnd]]
  rw [insertAndAux_append_rparen, insertAndAux_lparen_eq]
  rfl

theorem popHigher_frame (t : Tok) :
    ∀ (ops extra : List Tok),
      popHigher t (ops ++ Tok.lparen :: extra) =
        ((popHigher t ops).1, (popHigher t ops).2 ++ Tok.lparen :: extra) := by
  intro ops extra
  induction ops with
  | nil => simp [popHigher, isOpTok]
  | cons top rest ih =>
    by_cases h : isOpTok top = true ∧
        (prec t < prec top ∨ (prec top = prec t ∧ isRightAssoc t = false))
    · simp only [List.cons_append, popHigher, if_pos h, List.append_eq, ih]
    · simp only [List.cons_append, popHigher, if_neg h, List.append_eq]

theorem popToLParen_frame :
    ∀ (ops l2 : List Tok) (p : List Tok × List Tok), popToLParen ops = some p →
      popToLParen (ops ++ l2) = some (p.1, p.2 ++ l2) := by
  intro ops
  induction ops with
  | nil => intro l2 p h; simp [popToLParen] at h
  | cons top rest ih =>
    intro l2 p h
    by_cases htop : top = Tok.lparen
    · rw [popToLParen, if_pos htop] at h
      obtain rfl := Option.some.inj h
      rw [List.cons_append, popToLParen, if_pos htop]
    · rw [popToLParen, if_neg htop] at h
      cases hrec : popToLParen rest with
      | none => rw [hrec] at h; simp at h
      | some q =>
        rw [hrec] at h
        obtain rfl := Option.some.inj h
        rw [List.cons_append, popToLParen, if_neg htop, ih l2 q hrec]

theorem popToLParen_noparen :
    ∀ (ops : List Tok), (∀ x ∈ ops, x ≠ Tok.lparen) → ∀ extra,
      popToLParen (ops ++ Tok.lparen :: extra) = some (ops, extra) := by
  intro ops
  induction ops with
  | nil => intro _ extra; simp [popToLParen]
  | cons top rest ih =>
    intro h extra
    have htop : top ≠ Tok.lparen := h top (List.mem_cons_self _ _)
    rw [List.cons_append, popToLParen, if_neg htop,
      ih (fun x hx => h x (List.mem_cons_of_mem _ hx)) extra]

theorem drainOps_no_paren :
    ∀ (ops d : List Tok), drainOps ops = some d →
      ∀ x ∈ ops, ¬(x = Tok.lparen ∨ x = Tok.rparen) := by
  intro ops
  induction ops with
  | nil => intro d _ x hx; simp at hx
  | cons top rest ih =>
    intro d h x hx
    by_cases htop : top = Tok.lparen ∨ top = Tok.rparen
    · rw [drainOps, if_pos htop] at h
      simp at h
    · rw [drainOps, if_neg htop] at h
      cases hrec : drainOps rest with
      | none => rw [hrec] at h; simp at h
      | some r =>
        rcases List.mem_cons.mp hx with rfl | hx'
        · exact htop
        · exact ih r hrec x hx'

theorem runSY_append :
    ∀ (xs ys out ops : List Tok) (p : List Tok × List Tok), runSY xs out ops = some p →
      runSY (xs ++ ys) out ops = runSY ys p.1 p.2 := by
  intro xs
  induction xs with
  | nil =>
    intro ys out ops p h
    obtain rfl := Option.some.inj h
    rfl
  | cons t xs ih =>
    intro ys out ops p h
    cases t with
    | term s =>
      rw [runSY] at h
      rw [List.cons_append, runSY]
      exact ih ys _ _ p h
    | and =>
      rw [runSY] at h
      rw [List.cons_append, runSY]
      exact ih ys _ _ p h
    | or =>
      rw [runSY] at h
      rw [List.cons_append, runSY]
      exact ih ys _ _ p h
    | not =>
      rw [runSY] at h
      rw [List.cons_append, runSY]
      exact ih ys _ _ p h
    | lparen =>
      rw [runSY] at h
      rw [List.cons_append, runSY]
      exact ih ys _ _ p h
    | rparen =>
      rw [runSY] at h
      rw [List.cons_append, runSY]
      cases hpop : popToLParen ops with
      | none => rw [hpop] at h; simp at h
      | some q =>
        rw [hpop] at h
        exact ih ys _ _ p h

theorem runSY_frame :
    ∀ (ts out ops out2 ops2 : List Tok), runSY ts out ops = some (out2, ops2) →
      ∀ extra, runSY ts out (ops ++ Tok.lparen :: extra) =
        some (out2, ops2 ++ Tok.lparen :: extra) := by
  intro ts
  induction ts with
  | nil =>
    intro out ops out2 ops2 h extra
    have h2 := Option.some.inj h
    rw [Prod.mk.injEq] at h2
    obtain ⟨rfl, rfl⟩ := h2
    rfl
  | cons t ts ih =>
    intro out ops out2 ops2 h extra
    cases t with
    | term s =>
      rw [runSY] at h ⊢
      exact ih _ _ _ _ h extra
    | and =>
      rw [runSY] at h ⊢
      rw [popHigher_frame]
      exact ih _ _ _ _ h extra
    | or =>
      rw [runSY] at h ⊢
      rw [popHigher_frame]
      exact ih _ _ _ _ h extra
    | not =>
      rw [runSY] at h ⊢
      rw [popHigher_frame]
      exact ih _ _ _ _ h extra
    | lparen =>
      rw [runSY] at h ⊢
      exact ih _ _ _ _ h extra
    | rparen =>
      rw [runSY] at h ⊢
      cases hpop : popToLParen ops with
      | none => rw [hpop] at h; simp at h
      | some q =>
        rw [hpop] at h
        rw [popToLParen_frame ops (Tok.lparen :: extra) q hpop]
        exact ih _ _ _ _ h extra

theorem toRpn_inv (ts rpn : List Tok) (h : toRpn ts = some rpn) :
    ∃ out1 ops1, runSY ts [] [] = some (out1, ops1) ∧ drainOps ops1 = some ops1 ∧
      rpn = out1 ++ ops1 := by
  cases hrun : runSY ts [] [] with
  | none => rw [toRpn, hrun] at h; simp at h
  | some p =>
    obtain ⟨out1, ops1⟩ := p
    rw [toRpn, hrun] at h
    simp only at h
    cases hdrain : drainOps ops1 with
    | none => rw [hdrain] at h; simp at h
    | some d =>
      rw [hdrain] at h
      simp only [Option.some.injEq] at h
      have hd : d = ops1 := drainOps_eq ops1 d hdrain
      rw [hd] at hdrain h
      exact ⟨out1, ops1, rfl, hdrain, h.symm⟩

theorem toRpn_neg (ts rpn : List Tok) (h : toRpn ts = some rpn) :
    toRpn (Tok.not :: Tok.lparen :: (ts ++ [Tok.rparen])) = some (rpn ++ [Tok.not]) := by
  obtain ⟨out1, ops1, hrun, hdrain, rfl⟩ := toRpn_inv ts rpn h
  have h1 : runSY (Tok.not :: Tok.lparen :: (ts ++ [Tok.rparen])) [] [] =
      runSY (ts ++ [Tok.rparen]) [] [Tok.lparen, Tok.not] := rfl
  have h2 : runSY ts [] [Tok.lparen, Tok.not] = some (out1, ops1 ++ [Tok.lparen, Tok.not]) := by
    have hfr := runSY_frame ts [] [] out1 ops1 hrun [Tok.not]
    simpa using hfr
  have h3 : runSY (ts ++ [Tok.rparen]) [] [Tok.lparen, Tok.not] =
      runSY [Tok.rparen] out1 (ops1 ++ [Tok.lparen, Tok.not]) :=
    runSY_append ts [Tok.rparen] [] [Tok.lparen, Tok.not]
      (out1, ops1 ++ [Tok.lparen, Tok.not]) h2
  have hnp : ∀ x ∈ ops1, x ≠ Tok.lparen := by
    intro x hx hc
    exact drainOps_no_paren ops1 ops1 hdrain x hx (Or.inl hc)
  have h4 : runSY [Tok.rparen] out1 (ops1 ++ [Tok.lparen, Tok.not]) =
      some (out1 ++ ops1, [Tok.not]) := by
    rw [runSY, show (ops1 ++ [Tok.lparen, Tok.not]) = ops1 ++ Tok.lparen :: [Tok.not] from rfl,
      popToLParen_noparen ops1 hnp [Tok.not]]
    rfl
  rw [toRpn, h1, h3, h4]
  simp [drainOps]

theorem evalRpn_append (idx : Index) :
    ∀ (xs ys : List Tok) (st st2 : List (List Nat)), evalRpn idx xs st = some st2 →
      evalRpn idx (xs ++ ys) st = evalRpn idx ys st2 := by
  intro xs
  induction xs with
  | nil =>
    intro ys st st2 h
    obtain rfl := Option.some.inj h
    rfl
  | cons t xs ih =>
    intro ys st st2 h
    cases t with
    | term s =>
      rw [evalRpn] at h
      rw [List.cons_append, evalRpn]
      exact ih ys _ _ h
    | not =>
      cases st with
      | nil => simp [evalRpn] at h
      | cons a rest =>
        simp only [evalRpn] at h
        rw [List.cons_append]
        simp only [evalRpn]
        exact ih ys _ _ h
    | and =>
      cases st with
      | nil => simp [evalRpn] at h
      | cons b st' =>
        cases st' with
        | nil => simp [evalRpn] at h
        | cons a rest =>
          simp only [evalRpn] at h
          rw [List.cons_append]
          simp only [evalRpn]
          exact ih ys _ _ h
    | or =>
      cases st with
      | nil => simp [evalRpn] at h
      | cons b st' =>
        cases st' with
        | nil => simp [evalRpn] at h
        | cons a rest =>
          simp only [evalRpn] at h
          rw [List.cons_append]
          simp only [evalRpn]
          exact ih ys _ _ h
    | lparen =>
      rw [evalRpn] at h
      rw [List.cons_append, evalRpn]
      exact ih ys _ _ h
    | rparen =>
      rw [evalRpn] at h
      rw [List.cons_append, evalRpn]
      exact ih ys _ _ h

theorem evalRpn_good (idx : Index) (hwf : WF idx) :
    ∀ (rpn : List Tok) (st st2 : List (List Nat)), evalRpn idx rpn st = some st2 →
      (∀ l ∈ st, List.Sorted (· < ·) l ∧ ∀ x ∈ l, x ∈ idx.univ) →
      ∀ l ∈ st2, List.Sorted (· < ·) l ∧ ∀ x ∈ l, x ∈ idx.univ := by
  intro rpn
  induction rpn with
  | nil =>
    intro st st2 h hst
    obtain rfl := Option.some.inj h
    exact hst
  | cons t ts ih =>
    intro st st2 h hst
    cases t with
    | term s =>
      rw [evalRpn] at h
      refine ih _ _ h ?_
      intro l hl
      rcases List.mem_cons.mp hl with rfl | hl'
      · exact lookup_good idx hwf s
      · exact hst l hl'
    | not =>
      cases st with
      | nil => simp [evalRpn] at h
      | cons a rest =>
        simp only [evalRpn] at h
        refine ih _ _ h ?_
        intro l hl
        rcases List.mem_cons.mp hl with rfl | hl'
        · exact ⟨List.Pairwise.sublist (opNot_sublist _ _) hwf.1,
            fun x hx => (opNot_sublist idx.univ a).subset hx⟩
        · exact hst l (List.mem_cons_of_mem _ hl')
    | and =>
      cases st with
      | nil => simp [evalRpn] at h
      | cons b st' =>
        cases st' with
        | nil => simp [evalRpn] at h
        | cons a rest =>
          simp only [evalRpn] at h
          have hag := hst a (List.mem_cons_of_mem _ (List.mem_cons_self _ _))
          refine ih _ _ h ?_
          intro l hl
          rcases List.mem_cons.mp hl with rfl | hl'
          · exact ⟨List.Pairwise.sublist (opAnd_sublist _ _) hag.1,
              fun x hx => hag.2 x ((opAnd_sublist a b).subset hx)⟩
          · exact hst l (List.mem_cons_of_mem _ (List.mem_cons_of_mem _ hl'))
    | or =>
      cases st with
      | nil => simp [evalRpn] at h
      | cons b st' =>
        cases st' with
        | nil => simp [evalRpn] at h
        | cons a rest =>
          simp only [evalRpn] at h
          have hag := hst a (List.mem_cons_of_mem _ (List.mem_cons_self _ _))
          have hbg := hst b (List.mem_cons_self _ _)
          refine ih _ _ h ?_
          intro l hl
          rcases List.mem_cons.mp hl with rfl | hl'
          · refine ⟨opOr_sorted _ _ hag.1 hbg.1, ?_⟩
            intro x hx
            rcases (mem_opOr a b x).mp hx with h1 | h1
            · exact hag.2 x h1
            · exact hbg.2 x h1
          · exact hst l (List.mem_cons_of_mem _ (List.mem_cons_of_mem _ hl'))
    | lparen =>
      rw [evalRpn] at h
      exact ih _ _ h hst
    | rparen =>
      rw [evalRpn] at h
      exact ih _ _ h hst

theorem evalQuery_inv (idx : Index) (q : List Char) (r : List Nat)
    (h : evalQuery idx q = some r) (hne : tokenizeQuery q ≠ []) :
    ∃ rpn, toRpn (tokenizeQuery q) = some rpn ∧ evalRpn idx rpn [] = some [r] := by
  rw [evalQuery] at h
  rw [if_neg (by
    cases htq2 : tokenizeQuery q with
    | nil => exact absurd htq2 hne
    | cons a b => simp)] at h
  split at h
  · simp at h
  · rename_i rpn hrpn
    split at h
    · rename_i r2 heval
      obtain rfl := Option.some.inj h
      exact ⟨rpn, hrpn, heval⟩
    · simp at h

/-- Claim C1: for every query q that the engine evaluates successfully
    against a loaded well-formed index, and whose negation NOT LPAREN q
    RPAREN also evaluates successfully, the sorted union of the two result
    lists is exactly the universe and the two lists are disjoint: NOT is an
    exact complement. -/
theorem C1_not_exact_complement (idx : Index) (q : List Char) (r rneg : List Nat)
    (hwf : WF idx) (h : evalQuery idx q = some r)
    (hneg : evalQuery idx ('!' :: '(' :: (q ++ [')'])) = some rneg) :
    opOr rneg r = idx.univ ∧ ∀ x ∈ rneg, x ∉ r := by
  cases htq : tokenizeQuery q with
  | nil =>
    have hx : evalQuery idx ('!' :: '(' :: (q ++ [')'])) = none := by
      rw [evalQuery, tokenizeQuery_neg, htq]
      rfl
    rw [hx] at hneg
    exact absurd hneg (by simp)
  | cons t0 ts =>
    have hne : tokenizeQuery q ≠ [] := by rw [htq]; simp
    obtain ⟨rpn, hrpn, heval⟩ := evalQuery_inv idx q r h hne
    have hnene : tokenizeQuery ('!' :: '(' :: (q ++ [')'])) ≠ [] := by
      rw [tokenizeQuery_neg]; simp
    obtain ⟨rpn2, hrpn2, heval2⟩ :=
      evalQuery_inv idx ('!' :: '(' :: (q ++ [')'])) rneg hneg hnene
    rw [tokenizeQuery_neg] at hrpn2
    rw [toRpn_neg (tokenizeQuery q) rpn hrpn] at hrpn2
    obtain rfl := (Option.some.inj hrpn2).symm
    have hstep : evalRpn idx (rpn ++ [Tok.not]) [] = evalRpn idx [Tok.not] [r] :=
      evalRpn_append idx rpn [Tok.not] [] [r] heval
    rw [hstep] at heval2
    have hrneg : rneg = opNot idx.univ r := by
      rw [show evalRpn idx [Tok.not] [r] = some [opNot idx.univ r] from rfl] at heval2
      have := Option.some.inj heval2
      exact (List.cons.inj this).1.symm
    have hu : List.Sorted (· < ·) idx.univ := hwf.1
    have hrg : List.Sorted (· < ·) r ∧ ∀ x ∈ r, x ∈ idx.univ :=
      evalRpn_good idx hwf rpn [] [r] heval (by simp) r (List.mem_singleton.mpr rfl)
    have hnegs : List.Sorted (· < ·) (opNot idx.univ r) :=
      List.Pairwise.sublist (opNot_sublist idx.univ r) hu
    subst hrneg
    constructor
    · apply sorted_mem_ext (opOr_sorted _ _ hnegs hrg.1) hu
      intro x
      rw [mem_opOr, mem_opNot idx.univ r hu hrg.1 x]
      constructor
      · rintro (⟨h1, _⟩ | h1)
        · exact h1
        · exact hrg.2 x h1
      · intro h1
        by_cases h2 : x ∈ r
        · exact Or.inr h2
        · exact Or.inl ⟨h1, h2⟩
    · intro x hx
      exact ((mem_opNot idx.univ r hu hrg.1 x).mp hx).2

/-- Witness for C1 at the concrete index wIdx and the query a: the query
    evaluates to [1], its negation to [2], and union/disjointness hold. -/
theorem C1_witness :
    WF wIdx ∧ evalQuery wIdx ['a'] = some [1] ∧
      evalQuery wIdx ['!', '(', 'a', ')'] = some [2] ∧
      (opOr [2] [1] = wIdx.univ ∧ ∀ x ∈ ([2] : List Nat), x ∉ ([1] : List Nat)) := by
  have h1 : evalQuery wIdx ['a'] = some [1] := by decide
  have ht : tokenizeQuery ['!', '(', 'a', ')'] =
      [Tok.not, Tok.lparen, Tok.term ['a'], Tok.rparen] := by decide
  have hr : toRpn [Tok.not, Tok.lparen, Tok.term ['a'], Tok.rparen] =
      some [Tok.term ['a'], Tok.not] := by decide
  have he : evalRpn wIdx [Tok.term ['a'], Tok.not] [] = some [[2]] := by
    simp [evalRpn, lookupTerm, wIdx, opNot]
  have h2 : evalQuery wIdx ['!', '(', 'a', ')'] = some [2] :=
    evalQuery_compute wIdx ['!', '(', 'a', ')'] Tok.not
      [Tok.lparen, Tok.term ['a'], Tok.rparen] [Tok.term ['a'], Tok.not] [2] ht hr he
  exact ⟨wIdx_wf, h1, h2,
    C1_not_exact_complement wIdx ['a'] [1] [2] wIdx_wf h1 h2⟩
